import Mathlib

/-!
Verification of `src/web_novel_scraper.py` (Latinaxia/web_novel_scraper).

The program is embedded shallowly:

* Python strings are modelled as `List Char` (`Str`).
* `clean_text` (lines 27-65) is split into the markup-level phase (tag removal and
  `get_text` over a node tree) and the pure line-filtering phase, both translated below.
* The markup parser (BeautifulSoup) is an external collaborator that is not part of the
  repository; it is modelled from the spec (a tokenizer and tree builder, without HTML
  entity conversion).
* The browser session (selenium) is modelled as an oracle record whose operations can
  fail, standing for the driver calls used by `scrape_text` and
  `detect_content_selector`.
* `batch_scrape` (lines 136-179) is modelled as a recursion over the URL list that also
  records the arguments of each `scrape_text` call.
-/

/-- A Python string, as its list of characters. -/
abbrev Str := List Char

/-- Embed a Lean string literal as a `Str`. -/
def str (s : String) : Str := s.data

/-- Python whitespace (the characters stripped by `str.strip()`), ASCII range.
Unicode space characters are not modelled. -/
def pyIsSpace (c : Char) : Bool :=
  c = ' ' || c = '\t' || c = '\n' || c = '\r' || c = Char.ofNat 11 || c = Char.ofNat 12

/-- Leading-whitespace removal (the first half of Python `str.strip()`). -/
def dropLeading (s : Str) : Str := s.dropWhile pyIsSpace

/-- Trailing-whitespace removal (the second half of Python `str.strip()`). -/
def dropTrailing : Str → Str
  | [] => []
  | c :: rest =>
    let r := dropTrailing rest
    if r.isEmpty && pyIsSpace c then [] else c :: r

/-- Python `str.strip()`. -/
def pyStrip (s : Str) : Str := dropTrailing (dropLeading s)

/-- Python `str.lower()`. ASCII case mapping; the ad keywords it is compared against
are ASCII/CJK, and CJK characters have no case. -/
def pyLower (s : Str) : Str := s.map Char.toLower

/-- Python substring test `needle in hay`. -/
def containsSub (needle hay : Str) : Bool := decide (needle <:+: hay)

/-- Python `s.split("\n")` (so `pyLines [] = [[]]`, as in Python). -/
def pyLines : Str → List Str
  | [] => [[]]
  | c :: rest =>
    if c = '\n' then [] :: pyLines rest
    else (pyLines rest).modifyHead (fun l => c :: l)

/-- Python `sep.join xs`. -/
def pyJoin (sep : Str) : List Str → Str
  | [] => []
  | [x] => x
  | x :: y :: rest => x ++ sep ++ pyJoin sep (y :: rest)

/-- Modelled from the spec: the markup parser (BeautifulSoup, an external collaborator,
§1/§6 of the spec, not part of the repository) parses an HTML fragment into a
traversable node tree.  A node is a text node or an element with tag name and
children; the attributes of an element are irrelevant to `clean_text` and omitted. -/
inductive Html where
  | text : Str → Html
  | elem : Str → List Html → Html

/-- `soup([...tags]) ... tag.decompose()` / `soup.find_all("a") ... a.decompose()`
(lines 32-37): remove every element whose tag is in `names`, together with its whole
subtree, keeping everything else. -/
def removeTags (names : List Str) : List Html → List Html
  | [] => []
  | Html.text s :: rest => Html.text s :: removeTags names rest
  | Html.elem tag kids :: rest =>
    if tag ∈ names then removeTags names rest
    else Html.elem tag (removeTags names kids) :: removeTags names rest

/-- All text-node strings of a forest, in document order. -/
def textsF : List Html → List Str
  | [] => []
  | Html.text s :: rest => s :: textsF rest
  | Html.elem _ kids :: rest => textsF kids ++ textsF rest

/-- `soup.get_text(strip=True, separator="\n")` (line 40): each text-node string is
stripped, whitespace-only strings are dropped, and the rest are joined with `"\n"`. -/
def get_text (f : List Html) : Str :=
  pyJoin (str "\n") ((textsF f).filterMap fun s =>
    let t := pyStrip s
    if t.isEmpty then none else some t)

/-- The fixed advertising keyword list (lines 45-53). -/
def ad_keywords : List Str :=
  [str "ad:", str "hgame:", str "本站发布页", str "请勿使用非浏览器访问本站",
   str "www.", str "http", str ".com"]

/-- Line 57: `any(keyword in line.lower() for keyword in ad_keywords)`. -/
def hasAd (line : Str) : Bool :=
  ad_keywords.any fun kw => containsSub kw (pyLower line)

/-- Python regex `\w`: ASCII alphanumerics and underscore; non-ASCII characters are
treated as word characters (Python's Unicode `\w` also covers the CJK text this
scraper targets; rare non-ASCII punctuation is approximated as a word character). -/
def pyIsWordChar (c : Char) : Bool := c.isAlphanum || c = '_' || decide (127 < c.toNat)

/-- Line 60: `re.match(r"^[^\w\s]+$", line)` succeeds, i.e. the line is nonempty and
made only of characters that are neither word characters nor whitespace. -/
def punctOnly (line : Str) : Bool :=
  !line.isEmpty && line.all fun c => !pyIsWordChar c && !pyIsSpace c

/-- The line-filter loop of `clean_text` (lines 55-61): skip lines containing an ad
keyword; keep `line.strip()` when it is nonempty and the line is not punctuation-only. -/
def clean_lines (lines : List Str) : List Str :=
  lines.filterMap fun line =>
    if hasAd line then none
    else if !(pyStrip line).isEmpty && !punctOnly line then some (pyStrip line)
    else none

/-- The tags removed outright by `clean_text` (line 32). -/
def removed_tags : List Str := [str "script", str "style", str "ins", str "noscript"]

/-- `clean_text` (lines 27-65) applied to an already-parsed fragment: remove
script/style/ins/noscript subtrees, remove hyperlink subtrees, extract text with `"\n"`
separators, filter the lines, and join the survivors with blank lines. -/
def clean_forest (f : List Html) : Str :=
  let f1 := removeTags removed_tags f
  let f2 := removeTags [str "a"] f1
  let text := get_text f2
  let cleaned := clean_lines (pyLines text)
  pyJoin (str "\n\n") (cleaned.filter fun l => !l.isEmpty)

/-- `c` can start a tag name after `<` (a letter opens a tag, `/` a closing tag).
Part of the spec-modelled markup parser. -/
def tagStart (c : Char) : Bool := c.isAlpha || c = '/'

/-- Modelled from the spec: the markup parser's scan for the maximal text prefix, up to
the first `<` that begins a tag (a lone `<` not followed by a letter or `/` is literal
text, as in html.parser). Returns the text prefix and the remainder. -/
def takeText : Str → Str × Str
  | [] => ([], [])
  | [c] => ([c], [])
  | c1 :: c2 :: rest =>
    if c1 = '<' && tagStart c2 then ([], c1 :: c2 :: rest)
    else
      let p := takeText (c2 :: rest)
      (c1 :: p.1, p.2)

/-- Markup tokens: text, an opening tag, a closing tag. -/
inductive Tok where
  | ttext : Str → Tok
  | topen : Str → Tok
  | tclose : Str → Tok

/-- Read a tag name (alphanumeric run). -/
def readName (s : Str) : Str × Str :=
  (s.takeWhile Char.isAlphanum, s.dropWhile Char.isAlphanum)

/-- Skip past the closing `>` of a tag. -/
def skipGt : Str → Str
  | [] => []
  | c :: rest => if c = '>' then rest else skipGt rest

/-- Modelled from the spec: the markup parser's tokenizer (fuel-indexed; `fuel = length`
always suffices since every step consumes input). Entities, comments and raw-text
elements are not modelled. -/
def tokenizeAux : Nat → Str → List Tok
  | 0, _ => []
  | _, [] => []
  | fuel + 1, s =>
    let p := takeText s
    let ts := if p.1.isEmpty then ([] : List Tok) else [Tok.ttext p.1]
    match p.2 with
    | [] => ts
    | '<' :: c :: rest =>
      if c = '/' then
        let n := readName rest
        ts ++ Tok.tclose n.1 :: tokenizeAux fuel (skipGt n.2)
      else
        let n := readName (c :: rest)
        ts ++ Tok.topen n.1 :: tokenizeAux fuel (skipGt n.2)
    | r => ts ++ [Tok.ttext r]

/-- Modelled from the spec: close the current open element into its parent (or into the
accumulated roots), popping until the frame named `n` has been closed. -/
def popTo (n m : Str) (kids : List Html) :
    List (Str × List Html) → List Html → List (Str × List Html) × List Html
  | [], acc => ([], Html.elem m kids.reverse :: acc)
  | (m', kids') :: stk, acc =>
    let node := Html.elem m kids.reverse
    if m = n then ((m', node :: kids') :: stk, acc)
    else popTo n m' (node :: kids') stk acc

/-- Modelled from the spec: at end of input, close every still-open element. -/
def finalizeAux (m : Str) (kids : List Html) :
    List (Str × List Html) → List Html → List Html
  | [], acc => (Html.elem m kids.reverse :: acc).reverse
  | (m', kids') :: stk, acc => finalizeAux m' (Html.elem m kids.reverse :: kids') stk acc

/-- Modelled from the spec: the markup parser's tree builder over the token stream,
with a stack of open elements (`acc` holds finished roots in reverse).  A closing tag
with no matching open element is ignored. -/
def buildAux : List Tok → List (Str × List Html) → List Html → List Html
  | [], [], acc => acc.reverse
  | [], (m, kids) :: stk, acc => finalizeAux m kids stk acc
  | Tok.ttext s :: rest, [], acc => buildAux rest [] (Html.text s :: acc)
  | Tok.ttext s :: rest, (m, kids) :: stk, acc =>
    buildAux rest ((m, Html.text s :: kids) :: stk) acc
  | Tok.topen n :: rest, stk, acc => buildAux rest ((n, []) :: stk) acc
  | Tok.tclose n :: rest, stk, acc =>
    if (stk.map Prod.fst).contains n then
      match stk with
      | [] => buildAux rest [] acc
      | (m, kids) :: stk' =>
        let p := popTo n m kids stk' acc
        buildAux rest p.1 p.2
    else buildAux rest stk acc

/-- Modelled from the spec: parse an HTML fragment into a node forest. -/
def parseHtml (s : Str) : List Html := buildAux (tokenizeAux s.length s) [] []

/-- `clean_text` (lines 27-65) on a string, via the spec-modelled parser. -/
def clean_text (s : Str) : Str := clean_forest (parseHtml s)

/-- The browser session (selenium driver), as an oracle for the calls `scrape_text` and
`detect_content_selector` make. An element is represented by the data the code reads
from it: `findElements` yields the `.text` of each match (line 80-81), `findElement`
yields the `innerHTML` of the match (lines 118-119).  `Except.error e` stands for the
call raising an exception with message `e`.  `driver.get` and the bounded wait are
likewise fallible.  Timed sleeps and `driver.quit()` affect no returned data and carry
no state here. -/
structure Driver where
  get : Str → Except Str Unit
  findElements : Str → Except Str (List Str)
  findElement : Str → Except Str Str
  waitFor : Str → Except Str Unit

/-- The candidate selector list of `detect_content_selector` (lines 70-76), in declared
priority order. -/
def potential_selectors : List Str :=
  [str "div#content", str "div#contenta", str "div.novelcontent",
   str "div.read-content", str "div.article-content"]

/-- The loop of `detect_content_selector` over a candidate list: a candidate whose
lookup raises, matches nothing, or whose first match's text has length `≤ 500` is
skipped (lines 78-85); otherwise it is returned.  If no candidate qualifies the
whole-document fallback `"body"` is returned (line 88). -/
def detectLoop (find : Str → Except Str (List Str)) : List Str → Str
  | [] => str "body"
  | sel :: rest =>
    match find sel with
    | Except.error _ => detectLoop find rest
    | Except.ok [] => detectLoop find rest
    | Except.ok (e :: _) => if 500 < e.length then sel else detectLoop find rest

/-- `detect_content_selector` (lines 68-88). -/
def detect_content_selector (find : Str → Except Str (List Str)) : Str :=
  detectLoop find potential_selectors

/-- A `ScrapeResult`: the dict returned by `scrape_text` (lines 127 and 131); a missing
`selector`/`error` key is `none`. -/
structure ScrapeResult where
  url : Str
  content : Str
  selector : Option Str
  error : Option Str

/-- Python truthiness of the `selector` argument (`if not selector`, lines 106, 148):
`None` and the empty string are falsy. -/
def pyFalsy : Option Str → Bool
  | none => true
  | some s => s.isEmpty

/-- The selector `scrape_text` extracts with (lines 105-107): the caller's selector if
truthy, otherwise the auto-detected one. -/
def scrape_used_selector (d : Driver) (selector : Option Str) : Str :=
  if pyFalsy selector then detect_content_selector d.findElements
  else selector.getD []

/-- The `try` body of `scrape_text` (lines 94-127): navigate, (sleeps elided — no data),
pick the selector, wait for it (a failure of the bounded wait alone is caught inside and
only logged, line 114-115), locate the element, take its `innerHTML`, clean it.  The
短-content check (line 124) only prints a warning.  `Except.error e` is an exception
escaping the body with message `e`. -/
def scrape_attempt (d : Driver) (url : Str) (selector : Option Str) :
    Except Str ScrapeResult := do
  let _ ← d.get url
  let sel := scrape_used_selector d selector
  let _wait := d.waitFor sel
  let html ← d.findElement sel
  let cleaned := clean_text html
  pure { url := url, content := cleaned, selector := some sel, error := none }

/-- `scrape_text` (lines 91-133).  `setup` is the result of `setup_driver(headless)`
(line 93), which runs *before* the `try`: if acquiring the session raises, the exception
propagates (`Except.error`); once a driver exists, every exception of the body is caught
and converted to an error `ScrapeResult` (lines 129-131). -/
def scrape_text (setup : Except Str Driver) (url : Str) (selector : Option Str) :
    Except Str ScrapeResult :=
  match setup with
  | Except.error e => Except.error e
  | Except.ok d =>
    match scrape_attempt d url selector with
    | Except.ok r => Except.ok r
    | Except.error e =>
      Except.ok { url := url, content := [], selector := none, error := some e }

/-- The per-URL loop of `batch_scrape` after the first URL (lines 142-149): for `i ≥ 2`
the `i == 1` guard is false, so the selector argument never changes again.  Each list
entry records the `scrape_text` call's `(url, selector)` arguments and its result;
an uncaught exception (`st` returning `Except.error`) aborts the loop. -/
def batchRest (st : Str → Option Str → Except Str ScrapeResult) (sel : Option Str) :
    List Str → Except Str (List ((Str × Option Str) × ScrapeResult))
  | [] => Except.ok []
  | u :: us =>
    match st u sel with
    | Except.error e => Except.error e
    | Except.ok r =>
      match batchRest st sel us with
      | Except.error e => Except.error e
      | Except.ok l => Except.ok (((u, sel), r) :: l)

/-- The full per-URL loop of `batch_scrape` (lines 140-149) with its call trace: the
first URL is scraped with the caller's selector; afterwards (line 148) if the caller's
selector was falsy and the first result has a `selector` key, that selector is adopted
for all remaining URLs. -/
def batch_trace (st : Str → Option Str → Except Str ScrapeResult) (urls : List Str)
    (selector : Option Str) : Except Str (List ((Str × Option Str) × ScrapeResult)) :=
  match urls with
  | [] => Except.ok []
  | u1 :: rest =>
    match st u1 selector with
    | Except.error e => Except.error e
    | Except.ok r1 =>
      match batchRest st
          (if pyFalsy selector && r1.selector.isSome then r1.selector else selector)
          rest with
      | Except.error e => Except.error e
      | Except.ok l => Except.ok (((u1, selector), r1) :: l)

/-- `all_content` as collected by `batch_scrape` (lines 140-145). -/
def batch_results (st : Str → Option Str → Except Str ScrapeResult) (urls : List Str)
    (selector : Option Str) : Except Str (List ScrapeResult) :=
  (batch_trace st urls selector).map (List.map Prod.snd)

/-- One entry of the artifact body (line 157): `f"来源: {url}\n\n{content}"`. -/
def sectionOf (r : ScrapeResult) : Str :=
  str "来源: " ++ r.url ++ str "\n\n" ++ r.content

/-- The successful results (`if result["content"]`, lines 159, 171). -/
def successes (all_content : List ScrapeResult) : List ScrapeResult :=
  all_content.filter fun r => !r.content.isEmpty

/-- `combined_text` (lines 152-162), exactly as the source computes it:
`"\n\n" + "=" * 50 + "\n\n".join(sections)` — the `join` binds first, so the divider is
*prepended once*, not placed between sections. -/
def combined_text (all_content : List ScrapeResult) : Str :=
  str "\n\n" ++ List.replicate 50 '=' ++
    pyJoin (str "\n\n") ((successes all_content).map sectionOf)

/-- The saved-page count printed by the summary (line 171). -/
def saved_count (all_content : List ScrapeResult) : Nat :=
  (successes all_content).length

/-- The per-URL status text (lines 176-178): success iff the content is nonempty,
otherwise failure with the recorded error or the default `未知原因`. -/
def status_line (r : ScrapeResult) : Str :=
  if !r.content.isEmpty then str "成功"
  else str "失败: " ++ r.error.getD (str "未知原因")

/-- Following the spec's words (§4.2), for comparison with `detect_content_selector`:
a candidate qualifies when its lookup succeeds, at least one element matches and the
first match's text length exceeds the threshold (500). -/
def detect_spec_qualifies (find : Str → Except Str (List Str)) (sel : Str) : Bool :=
  match find sel with
  | Except.ok (e :: _) => decide (500 < e.length)
  | _ => false

/-- A node of the kind C8 quantifies over: a script element, a style element, a
hyperlink element, or a text node all of whose lines contain an advertising keyword. -/
inductive NoiseOnly : Html → Prop
  | script (kids : List Html) : NoiseOnly (Html.elem (str "script") kids)
  | style (kids : List Html) : NoiseOnly (Html.elem (str "style") kids)
  | link (kids : List Html) : NoiseOnly (Html.elem (str "a") kids)
  | adText (s : Str) (h : ∀ l ∈ pyLines s, hasAd l = true) : NoiseOnly (Html.text s)

/-- An adjacent pair of characters that does not begin a tag. -/
def okPair (c1 c2 : Char) : Bool := !(c1 = '<' && tagStart c2)

/-- A string that contains no tag start (`<` immediately followed by a letter or `/`),
so the spec-modelled parser reads it as pure text. -/
def tsf : Str → Bool
  | [] => true
  | [_] => true
  | c1 :: c2 :: rest => okPair c1 c2 && tsf (c2 :: rest)

/-- The last element of a list of strings (`[]` for the empty list). -/
def lastOf : List Str → Str
  | [] => []
  | [x] => x
  | _ :: x :: rest => lastOf (x :: rest)

/-- Concatenation of line lists: the last line of `xs` is merged with the first line of
`ys` (this is how `pyLines` behaves on an append). -/
def glue : List Str → List Str → List Str
  | [], ys => ys
  | [x], ys =>
    match ys with
    | [] => [x]
    | y :: ys' => (x ++ y) :: ys'
  | x :: x' :: xs, ys => x :: glue (x' :: xs) ys

/-- A driver whose navigation fails: input for the C4 witness. -/
def failDriver : Driver where
  get := fun _ => Except.error (str "nav error")
  findElements := fun _ => Except.ok []
  findElement := fun _ => Except.ok []
  waitFor := fun _ => Except.ok ()

/-- A scrape oracle that always succeeds and reports selector `div#content`:
input for the batch witnesses. -/
def stFixed : Str → Option Str → Except Str ScrapeResult := fun u _ =>
  Except.ok { url := u, content := str "c", selector := some (str "div#content"),
              error := none }

theorem detectLoop_eq_find (find : Str → Except Str (List Str)) (l : List Str) :
    detectLoop find l = (l.find? (detect_spec_qualifies find)).getD (str "body") := by
  induction l with
  | nil => rfl
  | cons sel rest ih =>
    rw [List.find?_cons]
    cases h : find sel with
    | error e => simpa [detectLoop, h, detect_spec_qualifies] using ih
    | ok es =>
      cases es with
      | nil => simpa [detectLoop, h, detect_spec_qualifies] using ih
      | cons e es' =>
        by_cases hl : 500 < e.length
        · simp [detectLoop, h, detect_spec_qualifies, hl]
        · simpa [detectLoop, h, detect_spec_qualifies, hl] using ih

/-- Claim C5: selector detection is total and returns the first candidate, in declared
priority order, that qualifies (lookup succeeded, at least one match, first match's text
longer than 500); candidates that raise, match nothing or are too short are skipped, and
if no candidate qualifies the whole-document fallback `body` is returned. -/
theorem detect_content_selector_first_qualifying (find : Str → Except Str (List Str)) :
    detect_content_selector find
      = (potential_selectors.find? (detect_spec_qualifies find)).getD (str "body") :=
  detectLoop_eq_find find potential_selectors

/-- Claim C4: an exception anywhere in steps 2-9 of the single-page scrape is caught at
the scraper boundary and turned into a `ScrapeResult` with `error` the exception's
message and empty `content`; it does not propagate. -/
theorem scrape_exception_caught (d : Driver) (url : Str) (selector : Option Str)
    (e : Str) (h : scrape_attempt d url selector = Except.error e) :
    scrape_text (Except.ok d) url selector
      = Except.ok { url := url, content := [], selector := none, error := some e } := by
  unfold scrape_text
  split
  · simp_all
  · simp_all

/-- Witness for C4: a driver whose navigation raises produces exactly the error result. -/
theorem scrape_exception_caught_witness :
    scrape_text (Except.ok failDriver) (str "u") none
      = Except.ok { url := str "u", content := [], selector := none,
                    error := some (str "nav error") } :=
  scrape_exception_caught failDriver (str "u") none (str "nav error") rfl

/-- Counterexample to claim C2 as stated: an exception raised while acquiring the
browser session (`setup_driver`, line 93, outside the `try`) escapes the scraper, so not
every per-URL invocation returns a `ScrapeResult`. -/
theorem scrape_setup_failure_escapes :
    ¬ ∃ r : ScrapeResult,
        scrape_text (Except.error (str "session boom")) (str "u") none = Except.ok r := by
  rintro ⟨r, h⟩
  simp [scrape_text] at h

/-- Claim C2 as amended: once the browser session has been acquired, no exception
raised inside the single-page scrape escapes — every such invocation returns a
`ScrapeResult`. -/
theorem scrape_after_acquisition_total (d : Driver) (url : Str) (selector : Option Str) :
    ∃ r : ScrapeResult, scrape_text (Except.ok d) url selector = Except.ok r := by
  cases h : scrape_attempt d url selector with
  | ok r => exact ⟨r, by simp [scrape_text, h]⟩
  | error e =>
    exact ⟨{ url := url, content := [], selector := none, error := some e },
      by simp [scrape_text, h]⟩

theorem batchRest_ok (st : Str → Option Str → Except Str ScrapeResult)
    (sel : Option Str) :
    ∀ (us : List Str) (l : List ((Str × Option Str) × ScrapeResult)),
      batchRest st sel us = Except.ok l →
      (∀ e ∈ l, e.1.2 = sel) ∧ (l.map fun e => e.1.1) = us ∧
        ((∀ u sl r, st u sl = Except.ok r → r.url = u) →
          (l.map fun e => e.2.url) = us) := by
  intro us
  induction us with
  | nil =>
    intro l h
    simp only [batchRest] at h
    cases h
    simp
  | cons u us ih =>
    intro l h
    cases h1 : st u sel with
    | error e => simp [batchRest, h1] at h
    | ok r =>
      cases h2 : batchRest st sel us with
      | error e => simp [batchRest, h1, h2] at h
      | ok l' =>
        simp only [batchRest, h1, h2] at h
        injection h with h3
        subst h3
        obtain ⟨ha, hb, hc⟩ := ih l' h2
        refine ⟨?_, ?_, ?_⟩
        · intro e he
          rcases List.mem_cons.1 he with rfl | he'
          · rfl
          · exact ha e he'
        · simp [hb]
        · intro hurl
          simp [hc hurl, hurl u sel r h1]

/-- Claim C1: when the caller supplies no selector and the first URL's result carries a
discovered selector `s`, the first call's argument is the caller's `none` and every
later call in the batch receives exactly `some s`; and a nonempty supplied selector
means `scrape_text` never invokes auto-detection for it. -/
theorem batch_selector_propagation (st : Str → Option Str → Except Str ScrapeResult)
    (u1 : Str) (rest : List Str) (r1 : ScrapeResult) (s : Str)
    (log : List ((Str × Option Str) × ScrapeResult))
    (h1 : st u1 none = Except.ok r1) (hs : r1.selector = some s)
    (hlog : batch_trace st (u1 :: rest) none = Except.ok log) :
    log.head? = some ((u1, none), r1)
      ∧ (∀ e ∈ log.tail, e.1.2 = some s)
      ∧ (s ≠ [] → ∀ d : Driver, scrape_used_selector d (some s) = s) := by
  simp only [batch_trace, h1, hs, pyFalsy, Option.isSome_some, Bool.true_and,
    if_pos] at hlog
  cases h2 : batchRest st (some s) rest with
  | error e => rw [h2] at hlog; simp at hlog
  | ok l' =>
    rw [h2] at hlog
    injection hlog with h3
    subst h3
    obtain ⟨ha, -, -⟩ := batchRest_ok st (some s) rest l' h2
    refine ⟨rfl, ha, ?_⟩
    intro hne d
    have hemp : s.isEmpty = false := by
      cases s with
      | nil => exact absurd rfl hne
      | cons c cs => rfl
    simp [scrape_used_selector, pyFalsy, hemp]

/-- Witness for C1: with a scrape oracle that reports selector `div#content`, the
second call of a three-URL batch receives exactly that selector as its argument. -/
theorem batch_selector_propagation_witness :
    ((str "b", some (str "div#content")),
      { url := str "b", content := str "c", selector := some (str "div#content"),
        error := none : ScrapeResult }).1.2 = some (str "div#content") :=
  (batch_selector_propagation stFixed (str "a") [str "b", str "c"]
    { url := str "a", content := str "c", selector := some (str "div#content"),
      error := none }
    (str "div#content")
    [((str "a", none),
      { url := str "a", content := str "c", selector := some (str "div#content"),
        error := none }),
     ((str "b", some (str "div#content")),
      { url := str "b", content := str "c", selector := some (str "div#content"),
        error := none }),
     ((str "c", some (str "div#content")),
      { url := str "c", content := str "c", selector := some (str "div#content"),
        error := none })]
    rfl rfl rfl).2.1 _ (List.mem_cons_self _ _)

/-- Claim C6: the trace of a completed batch pairs the input URLs in order — the
collected result list has exactly one entry per input URL, in input order, whatever the
individual results contain; and if the oracle stamps each result with its URL (as
`scrape_text` does), the results' URLs are the input list itself. -/
theorem batch_results_order (st : Str → Option Str → Except Str ScrapeResult)
    (urls : List Str) (sel0 : Option Str)
    (log : List ((Str × Option Str) × ScrapeResult))
    (hlog : batch_trace st urls sel0 = Except.ok log) :
    batch_results st urls sel0 = Except.ok (log.map Prod.snd)
      ∧ (log.map fun e => e.1.1) = urls
      ∧ (log.map Prod.snd).length = urls.length
      ∧ ((∀ u sl r, st u sl = Except.ok r → r.url = u) →
          ((log.map Prod.snd).map ScrapeResult.url) = urls) := by
  refine ⟨by simp [batch_results, hlog, Except.map], ?_⟩
  cases urls with
  | nil =>
    simp only [batch_trace] at hlog
    cases hlog
    simp
  | cons u1 rest =>
    cases h1 : st u1 sel0 with
    | error e => simp [batch_trace, h1] at hlog
    | ok r1 =>
      simp only [batch_trace, h1] at hlog
      cases h2 : batchRest st
          (if pyFalsy sel0 && r1.selector.isSome then r1.selector else sel0) rest with
      | error e => rw [h2] at hlog; simp at hlog
      | ok l' =>
        rw [h2] at hlog
        injection hlog with h3
        subst h3
        obtain ⟨-, hb, hc⟩ := batchRest_ok st _ rest l' h2
        refine ⟨by simp [hb], ?_, ?_⟩
        · have := congrArg List.length hb
          simpa using this
        · intro hurl
          have := hc hurl
          simp only [List.map_map, List.map_cons] at this ⊢
          refine congrArg₂ List.cons (hurl u1 sel0 r1 h1) ?_
          simpa [Function.comp] using this

/-- Witness for C6: a concrete two-URL batch yields a trace whose call arguments and
result URLs are the input list in order. -/
theorem batch_results_order_witness :
    ((([((str "a", (none : Option Str)),
        { url := str "a", content := str "c", selector := some (str "div#content"),
          error := none : ScrapeResult }),
        ((str "b", some (str "div#content")),
        { url := str "b", content := str "c", selector := some (str "div#content"),
          error := none : ScrapeResult })]).map fun e => e.1.1) = [str "a", str "b"]) := by
  refine (batch_results_order stFixed [str "a", str "b"] none _ rfl).2.1

/-- Claim C3 fails on the code: in
`"\n\n" + "=" * 50 + "\n\n".join(sections)` (lines 152-162) the `join` binds first, so
consecutive sections are separated only by a blank line, and the one divider is glued to
the front (and onto the first label line).  Evaluating `combined_text` on two successful
results shows the divider once, at the start, and no divider between the sections. -/
theorem combined_text_divider_misplaced :
    combined_text
        [{ url := str "a", content := str "X", selector := none, error := none },
         { url := str "b", content := str "Y", selector := none, error := none }]
      = str "\n\n" ++ List.replicate 50 '='
        ++ str "来源: a\n\nX\n\n来源: b\n\nY"
    ∧ pyJoin (str "\n\n")
        ((successes
          [{ url := str "a", content := str "X", selector := none, error := none },
           { url := str "b", content := str "Y", selector := none, error := none }]).map
          sectionOf)
      = sectionOf { url := str "a", content := str "X", selector := none, error := none }
        ++ str "\n\n"
        ++ sectionOf { url := str "b", content := str "Y", selector := none, error := none } := by
  constructor
  · rfl
  · rfl

/-- Claim C7: in a three-result batch where exactly the second result has empty content,
the artifact body is built from exactly the sections of results 1 and 3 in that order
(result 2 is excluded), the saved-page count is 2, and the per-URL status lines read
success, failure, success. -/
theorem batch_three_second_fails (u1 u2 u3 c1 c3 : Str) (s1 s3 e2 : Option Str)
    (h1 : c1 ≠ []) (h3 : c3 ≠ []) :
    successes
        [{ url := u1, content := c1, selector := s1, error := none },
         { url := u2, content := [], selector := none, error := e2 },
         { url := u3, content := c3, selector := s3, error := none }]
      = [{ url := u1, content := c1, selector := s1, error := none },
         { url := u3, content := c3, selector := s3, error := none }]
    ∧ combined_text
        [{ url := u1, content := c1, selector := s1, error := none },
         { url := u2, content := [], selector := none, error := e2 },
         { url := u3, content := c3, selector := s3, error := none }]
      = str "\n\n" ++ List.replicate 50 '='
          ++ sectionOf { url := u1, content := c1, selector := s1, error := none }
          ++ str "\n\n"
          ++ sectionOf { url := u3, content := c3, selector := s3, error := none }
    ∧ saved_count
        [{ url := u1, content := c1, selector := s1, error := none },
         { url := u2, content := [], selector := none, error := e2 },
         { url := u3, content := c3, selector := s3, error := none }]
      = 2
    ∧ List.map status_line
        [{ url := u1, content := c1, selector := s1, error := none },
         { url := u2, content := [], selector := none, error := e2 },
         { url := u3, content := c3, selector := s3, error := none }]
      = [str "成功", str "失败: " ++ e2.getD (str "未知原因"), str "成功"] := by
  have e1 : c1.isEmpty = false := by cases c1 with
    | nil => exact absurd rfl h1
    | cons c cs => rfl
  have e3 : c3.isEmpty = false := by cases c3 with
    | nil => exact absurd rfl h3
    | cons c cs => rfl
  have hsucc : successes
        [{ url := u1, content := c1, selector := s1, error := none },
         { url := u2, content := [], selector := none, error := e2 },
         { url := u3, content := c3, selector := s3, error := none }]
      = [{ url := u1, content := c1, selector := s1, error := none },
         { url := u3, content := c3, selector := s3, error := none }] := by
    simp [successes, List.filter, e1, e3]
  refine ⟨hsucc, ?_, ?_, ?_⟩
  · simp only [combined_text, hsucc]
    simp [pyJoin, List.append_assoc]
  · simp [saved_count, hsucc]
  · simp [status_line, e1, e3]

/-- Witness for C7: the concrete three-result batch with URLs `a b c`, contents
`X`, empty, `Y`. -/
theorem batch_three_second_fails_witness :
    saved_count
        [{ url := str "a", content := str "X", selector := none, error := none },
         { url := str "b", content := [], selector := none, error := none },
         { url := str "c", content := str "Y", selector := none, error := none }]
      = 2
    ∧ List.map status_line
        [{ url := str "a", content := str "X", selector := none, error := none },
         { url := str "b", content := [], selector := none, error := none },
         { url := str "c", content := str "Y", selector := none, error := none }]
      = [str "成功", str "失败: 未知原因", str "成功"] := by
  have h := batch_three_second_fails (str "a") (str "b") (str "c") (str "X") (str "Y")
    none none none (by decide) (by decide)
  exact ⟨h.2.2.1, h.2.2.2⟩

/-- Claim C10: a result with empty content and no recorded error is reported as a
failure with the default unknown-reason message, contributes nothing to the artifact
body, and is not counted among the saved pages — success is judged solely by
non-emptiness of `content`. -/
theorem empty_content_counts_as_failure (r : ScrapeResult)
    (hc : r.content = []) (he : r.error = none) :
    status_line r = str "失败: 未知原因"
      ∧ (∀ pre post : List ScrapeResult,
          successes (pre ++ r :: post) = successes pre ++ successes post)
      ∧ (∀ pre post : List ScrapeResult,
          saved_count (pre ++ r :: post) = saved_count pre + saved_count post) := by
  have hemp : r.content.isEmpty = true := by rw [hc]; rfl
  refine ⟨?_, ?_, ?_⟩
  · simp only [status_line, hemp, he, Bool.not_true, Bool.false_eq_true, if_false,
      Option.getD_none]
    decide
  · intro pre post
    simp [successes, List.filter_append, List.filter, hemp]
  · intro pre post
    simp [saved_count, successes, List.filter_append, List.filter, hemp]

/-- Witness for C10: a concrete result with empty content and no error. -/
theorem empty_content_counts_as_failure_witness :
    status_line { url := str "u", content := [], selector := none, error := none }
      = str "失败: 未知原因"
    ∧ successes ([]
        ++ { url := str "u", content := [], selector := none,
             error := none : ScrapeResult } :: [])
      = successes [] ++ successes [] := by
  have h := empty_content_counts_as_failure
    { url := str "u", content := [], selector := none, error := none } rfl rfl
  exact ⟨h.1, h.2.1 [] []⟩

theorem pyLines_ne_nil (s : Str) : pyLines s ≠ [] := by
  induction s with
  | nil => simp [pyLines]
  | cons c rest ih =>
    simp only [pyLines]
    split
    · simp
    · cases h : pyLines rest with
      | nil => exact absurd h ih
      | cons x xs => simp [List.modifyHead]

theorem mem_pyLines_no_newline (s : Str) :
    ∀ l ∈ pyLines s, '\n' ∉ l := by
  induction s with
  | nil =>
    intro l hl
    simp [pyLines] at hl
    simp [hl]
  | cons c rest ih =>
    intro l hl
    simp only [pyLines] at hl
    by_cases hc : c = '\n'
    · rw [if_pos hc] at hl
      rcases List.mem_cons.1 hl with rfl | h2
      · simp
      · exact ih l h2
    · rw [if_neg hc] at hl
      cases h : pyLines rest with
      | nil => exact absurd h (pyLines_ne_nil rest)
      | cons x xs =>
        rw [h, List.modifyHead_cons] at hl
        rcases List.mem_cons.1 hl with rfl | h2
        · intro hmem
          rcases List.mem_cons.1 hmem with h3 | h3
          · exact hc h3.symm
          · exact ih x (h ▸ List.mem_cons_self x xs) h3
        · exact ih l (h ▸ List.mem_cons_of_mem x h2)

theorem pyLines_no_newline (s : Str) (h : '\n' ∉ s) : pyLines s = [s] := by
  induction s with
  | nil => rfl
  | cons c rest ih =>
    have hc : ¬ c = '\n' := fun hh => h (hh ▸ List.mem_cons_self c rest)
    have hr : '\n' ∉ rest := fun hh => h (List.mem_cons_of_mem c hh)
    simp only [pyLines, if_neg hc, ih hr, List.modifyHead_cons]

theorem glue_nil_cons (xs ys : List Str) (h : xs ≠ []) :
    glue xs ([] :: ys) = xs ++ ys := by
  induction xs with
  | nil => exact absurd rfl h
  | cons x xs ih =>
    cases xs with
    | nil => simp [glue]
    | cons x' xs' => simp only [glue, List.cons_append, ih (by simp)]

theorem lastOf_mem (l : List Str) (h : l ≠ []) : lastOf l ∈ l := by
  induction l with
  | nil => exact absurd rfl h
  | cons x xs ih =>
    cases xs with
    | nil => simp [lastOf]
    | cons x' xs' =>
      simp only [lastOf]
      exact List.mem_cons_of_mem x (ih (by simp))

theorem mem_dropLast_or_lastOf (l : List Str) (x : Str) (h : x ∈ l) :
    x ∈ l.dropLast ∨ x = lastOf l := by
  induction l with
  | nil => simp at h
  | cons y ys ih =>
    cases ys with
    | nil =>
      rcases List.mem_cons.1 h with rfl | h2
      · right; rfl
      · simp at h2
    | cons y' ys' =>
      rcases List.mem_cons.1 h with rfl | h2
      · left; simp
      · rcases ih h2 with h3 | h3
        · left
          rw [List.dropLast_cons_of_ne_nil (by simp)]
          exact List.mem_cons_of_mem y h3
        · right
          simpa [lastOf] using h3

theorem glue_shape (xs : List Str) (y : Str) (ys : List Str) (h : xs ≠ []) :
    glue xs (y :: ys) = xs.dropLast ++ (lastOf xs ++ y) :: ys := by
  induction xs with
  | nil => exact absurd rfl h
  | cons x xs ih =>
    cases xs with
    | nil => simp [glue, lastOf]
    | cons x' xs' =>
      simp only [glue, ih (by simp), lastOf,
        List.dropLast_cons_of_ne_nil (List.cons_ne_nil x' xs'), List.cons_append]

theorem pyLines_append (a b : Str) :
    pyLines (a ++ b) = glue (pyLines a) (pyLines b) := by
  induction a with
  | nil =>
    cases h : pyLines b with
    | nil => exact absurd h (pyLines_ne_nil b)
    | cons y ys => simp [pyLines, glue, h]
  | cons c a' ih =>
    by_cases hc : c = '\n'
    · have l1 : pyLines ((c :: a') ++ b) = [] :: pyLines (a' ++ b) := by
        simp [pyLines, hc]
      have l2 : pyLines (c :: a') = [] :: pyLines a' := by simp [pyLines, hc]
      rw [l1, l2, ih]
      cases h : pyLines a' with
      | nil => exact absurd h (pyLines_ne_nil a')
      | cons x xs => simp [glue]
    · have l1 : pyLines ((c :: a') ++ b)
          = (pyLines (a' ++ b)).modifyHead (fun l => c :: l) := by
        simp [pyLines, hc]
      have l2 : pyLines (c :: a') = (pyLines a').modifyHead (fun l => c :: l) := by
        simp [pyLines, hc]
      rw [l1, l2, ih]
      cases h : pyLines a' with
      | nil => exact absurd h (pyLines_ne_nil a')
      | cons x xs =>
        cases xs with
        | nil =>
          cases hb : pyLines b with
          | nil => exact absurd hb (pyLines_ne_nil b)
          | cons y ys => simp [glue, List.modifyHead]
        | cons x' xs' => simp [glue, List.modifyHead]

theorem pyLines_append_newline (a b : Str) :
    pyLines (a ++ '\n' :: b) = pyLines a ++ pyLines b := by
  have : ('\n' :: b : Str) = [] ++ '\n' :: b := rfl
  rw [pyLines_append]
  have h1 : pyLines ('\n' :: b) = [] :: pyLines b := by simp [pyLines]
  rw [h1, glue_nil_cons _ _ (pyLines_ne_nil a)]

theorem ws_lines (s : Str) (h : s.all pyIsSpace = true) :
    ∀ l ∈ pyLines s, l.all pyIsSpace = true := by
  induction s with
  | nil =>
    intro l hl
    simp [pyLines] at hl
    simp [hl]
  | cons c rest ih =>
    have hc : pyIsSpace c = true := by
      have := List.all_eq_true.1 h c (List.mem_cons_self c rest)
      exact this
    have hr : rest.all pyIsSpace = true := by
      refine List.all_eq_true.2 fun x hx => ?_
      exact List.all_eq_true.1 h x (List.mem_cons_of_mem c hx)
    intro l hl
    simp only [pyLines] at hl
    by_cases hnl : c = '\n'
    · rw [if_pos hnl] at hl
      rcases List.mem_cons.1 hl with rfl | h2
      · rfl
      · exact ih hr l h2
    · rw [if_neg hnl] at hl
      cases hres : pyLines rest with
      | nil => exact absurd hres (pyLines_ne_nil rest)
      | cons x xs =>
        rw [hres, List.modifyHead_cons] at hl
        rcases List.mem_cons.1 hl with rfl | h2
        · have hx : x.all pyIsSpace = true :=
            ih hr x (hres ▸ List.mem_cons_self x xs)
          simp [hc, hx]
        · exact ih hr l (hres ▸ List.mem_cons_of_mem x h2)

theorem dropTrailing_decomp (s : Str) :
    ∃ w, s = dropTrailing s ++ w ∧ w.all pyIsSpace = true := by
  induction s with
  | nil => exact ⟨[], rfl, rfl⟩
  | cons c rest ih =>
    obtain ⟨w, hw, hws⟩ := ih
    simp only [dropTrailing]
    by_cases hcond : (dropTrailing rest).isEmpty && pyIsSpace c
    · rw [if_pos hcond]
      rw [Bool.and_eq_true] at hcond
      have h1 : dropTrailing rest = [] := List.isEmpty_iff.1 hcond.1
      have h2 : pyIsSpace c = true := hcond.2
      refine ⟨c :: rest, by simp, ?_⟩
      rw [h1] at hw
      simp only [List.nil_append] at hw
      subst hw
      simp [h2, hws]
    · rw [if_neg hcond]
      exact ⟨w, by rw [List.cons_append, ← hw], hws⟩

theorem dropLeading_decomp (s : Str) :
    ∃ w, s = w ++ dropLeading s ∧ w.all pyIsSpace = true := by
  refine ⟨s.takeWhile pyIsSpace, ?_, List.all_takeWhile⟩
  rw [dropLeading, List.takeWhile_append_dropWhile]

theorem lines_dropTrailing (s : Str) :
    ∀ l' ∈ pyLines (dropTrailing s),
      ∃ l ∈ pyLines s, ∃ b, l = l' ++ b ∧ b.all pyIsSpace = true := by
  obtain ⟨w, hw, hws⟩ := dropTrailing_decomp s
  have hsplit : pyLines s = glue (pyLines (dropTrailing s)) (pyLines w) := by
    conv_lhs => rw [hw]
    exact pyLines_append _ _
  cases hwl : pyLines w with
  | nil => exact absurd hwl (pyLines_ne_nil w)
  | cons y ys =>
    rw [hwl, glue_shape _ _ _ (pyLines_ne_nil _)] at hsplit
    intro l' hl'
    rcases mem_dropLast_or_lastOf _ _ hl' with h1 | h1
    · refine ⟨l', ?_, [], by simp⟩
      rw [hsplit]
      exact List.mem_append_left _ h1
    · refine ⟨l' ++ y, ?_, y, rfl, ?_⟩
      · rw [hsplit, h1]
        exact List.mem_append_right _ (List.mem_cons_self _ _)
      · exact ws_lines w hws y (hwl ▸ List.mem_cons_self y ys)

theorem lines_dropLeading (s : Str) :
    ∀ l' ∈ pyLines (dropLeading s),
      ∃ l ∈ pyLines s, ∃ a, l = a ++ l' ∧ a.all pyIsSpace = true := by
  obtain ⟨w, hw, hws⟩ := dropLeading_decomp s
  have hsplit : pyLines s = glue (pyLines w) (pyLines (dropLeading s)) := by
    conv_lhs => rw [hw]
    exact pyLines_append _ _
  cases hdl : pyLines (dropLeading s) with
  | nil => exact absurd hdl (pyLines_ne_nil _)
  | cons y ys =>
    rw [hdl, glue_shape _ _ _ (pyLines_ne_nil _)] at hsplit
    intro l' hl'
    rcases List.mem_cons.1 hl' with rfl | h2
    · refine ⟨lastOf (pyLines w) ++ l', ?_, lastOf (pyLines w), rfl, ?_⟩
      · rw [hsplit]
        exact List.mem_append_right _ (List.mem_cons_self _ _)
      · exact ws_lines w hws _ (lastOf_mem _ (pyLines_ne_nil w))
    · refine ⟨l', ?_, [], by simp⟩
      rw [hsplit]
      exact List.mem_append_right _ (List.mem_cons_of_mem _ h2)

theorem lines_pyStrip (s : Str) :
    ∀ l' ∈ pyLines (pyStrip s),
      ∃ l ∈ pyLines s, ∃ a b, l = a ++ l' ++ b
        ∧ a.all pyIsSpace = true ∧ b.all pyIsSpace = true := by
  intro l' hl'
  obtain ⟨l1, hl1, b, hb, hbw⟩ := lines_dropTrailing (dropLeading s) l' hl'
  obtain ⟨l, hl, a, ha, haw⟩ := lines_dropLeading s l1 hl1
  exact ⟨l, hl, a, b, by rw [ha, hb, List.append_assoc], haw, hbw⟩

theorem sub_drop_ws_left (t : Str) (hne : t ≠ [])
    (hnws : t.all (fun c => !pyIsSpace c) = true) :
    ∀ (a m : Str), a.all pyIsSpace = true → t <:+: (a ++ m) → t <:+: m := by
  intro a
  induction a with
  | nil => intro m _ h; simpa using h
  | cons x a' ih =>
    intro m hws h
    have hx : pyIsSpace x = true := List.all_eq_true.1 hws x (List.mem_cons_self x a')
    have ha' : a'.all pyIsSpace = true :=
      List.all_eq_true.2 fun c hc => List.all_eq_true.1 hws c (List.mem_cons_of_mem x hc)
    obtain ⟨u, v, huv⟩ := h
    cases u with
    | nil =>
      cases t with
      | nil => exact absurd rfl hne
      | cons tc t' =>
        simp only [List.nil_append, List.cons_append, List.cons.injEq] at huv
        have : pyIsSpace tc = false := by
          have := List.all_eq_true.1 hnws tc (List.mem_cons_self tc t')
          simpa using this
        rw [← huv.1] at hx
        rw [hx] at this
        exact absurd this (by simp)
    | cons uc u' =>
      simp only [List.cons_append, List.cons.injEq] at huv
      exact ih m ha' ⟨u', v, huv.2⟩

theorem sub_drop_ws_right (t : Str) (hne : t ≠ [])
    (hnws : t.all (fun c => !pyIsSpace c) = true)
    (m b : Str) (hws : b.all pyIsSpace = true) (h : t <:+: (m ++ b)) : t <:+: m := by
  have hrev : t.reverse <:+: (b.reverse ++ m.reverse) := by
    rw [← List.reverse_append]
    exact List.reverse_infix.2 h
  have hne' : t.reverse ≠ [] := by simpa using hne
  have hnws' : t.reverse.all (fun c => !pyIsSpace c) = true := by
    refine List.all_eq_true.2 fun c hc => ?_
    exact List.all_eq_true.1 hnws c (List.mem_reverse.1 hc)
  have hws' : b.reverse.all pyIsSpace = true := by
    refine List.all_eq_true.2 fun c hc => ?_
    exact List.all_eq_true.1 hws c (List.mem_reverse.1 hc)
  have := sub_drop_ws_left t.reverse hne' hnws' b.reverse m.reverse hws' hrev
  exact List.reverse_infix.1 this

theorem toLower_ws_fix (c : Char) (h : pyIsSpace c = true) : Char.toLower c = c := by
  simp only [pyIsSpace, Bool.or_eq_true, decide_eq_true_eq] at h
  rcases h with ((((rfl | rfl) | rfl) | rfl) | rfl) | rfl <;> decide

theorem pyLower_all_ws (a : Str) (h : a.all pyIsSpace = true) : pyLower a = a := by
  induction a with
  | nil => rfl
  | cons c a' ih =>
    have hc : pyIsSpace c = true := List.all_eq_true.1 h c (List.mem_cons_self c a')
    have ha' : a'.all pyIsSpace = true :=
      List.all_eq_true.2 fun x hx => List.all_eq_true.1 h x (List.mem_cons_of_mem c hx)
    simp only [pyLower, List.map_cons, toLower_ws_fix c hc]
    rw [show List.map Char.toLower a' = pyLower a' from rfl, ih ha']

theorem ad_keywords_facts :
    ad_keywords.all (fun kw => !kw.isEmpty && kw.all (fun c => !pyIsSpace c)) = true := by
  decide

theorem hasAd_extension (a m b l : Str) (hl : l = a ++ m ++ b)
    (haw : a.all pyIsSpace = true) (hbw : b.all pyIsSpace = true)
    (h : hasAd l = true) : hasAd m = true := by
  obtain ⟨kw, hkw, hc⟩ := List.any_eq_true.1 h
  have hinf : kw <:+: pyLower l := by
    have := of_decide_eq_true hc
    exact this
  have hkwf := List.all_eq_true.1 ad_keywords_facts kw hkw
  rw [Bool.and_eq_true] at hkwf
  have hkne : kw ≠ [] := by
    intro hk
    rw [hk] at hkwf
    simp at hkwf
  have hknws : kw.all (fun c => !pyIsSpace c) = true := hkwf.2
  have hlow : pyLower l = a ++ (pyLower m ++ b) := by
    rw [hl]
    simp only [pyLower, List.map_append, List.append_assoc]
    rw [show List.map Char.toLower a = pyLower a from rfl,
      show List.map Char.toLower b = pyLower b from rfl,
      pyLower_all_ws a haw, pyLower_all_ws b hbw]
  rw [hlow] at hinf
  have h1 : kw <:+: (pyLower m ++ b) := sub_drop_ws_left kw hkne hknws a _ haw hinf
  have h2 : kw <:+: pyLower m := sub_drop_ws_right kw hkne hknws _ b hbw h1
  exact List.any_eq_true.2 ⟨kw, hkw, decide_eq_true h2⟩

theorem hasAd_of_sub (x y : Str) (h : x <:+: y) (hx : hasAd x = true) :
    hasAd y = true := by
  obtain ⟨kw, hkw, hc⟩ := List.any_eq_true.1 hx
  have h1 : kw <:+: pyLower x := of_decide_eq_true hc
  have h2 : pyLower x <:+: pyLower y := List.IsInfix.map Char.toLower h
  exact List.any_eq_true.2 ⟨kw, hkw, decide_eq_true (h1.trans h2)⟩

theorem noise_texts (f : List Html) (h : ∀ n ∈ f, NoiseOnly n) :
    ∀ s ∈ textsF (removeTags [str "a"] (removeTags removed_tags f)),
      ∀ l ∈ pyLines s, hasAd l = true := by
  induction f with
  | nil => intro s hs; simp [removeTags, textsF] at hs
  | cons n f' ih =>
    have hn : NoiseOnly n := h n (List.mem_cons_self n f')
    have hf' : ∀ x ∈ f', NoiseOnly x := fun x hx => h x (List.mem_cons_of_mem n hx)
    cases hn with
    | script kids =>
      have e1 : removeTags removed_tags (Html.elem (str "script") kids :: f')
          = removeTags removed_tags f' := by
        simp only [removeTags, if_pos (show str "script" ∈ removed_tags by decide)]
      rw [e1]
      exact ih hf'
    | style kids =>
      have e1 : removeTags removed_tags (Html.elem (str "style") kids :: f')
          = removeTags removed_tags f' := by
        simp only [removeTags, if_pos (show str "style" ∈ removed_tags by decide)]
      rw [e1]
      exact ih hf'
    | link kids =>
      have e1 : removeTags removed_tags (Html.elem (str "a") kids :: f')
          = Html.elem (str "a") (removeTags removed_tags kids)
            :: removeTags removed_tags f' := by
        simp only [removeTags, if_neg (show ¬ str "a" ∈ removed_tags by decide)]
      rw [e1]
      have e2 : removeTags [str "a"]
            (Html.elem (str "a") (removeTags removed_tags kids)
              :: removeTags removed_tags f')
          = removeTags [str "a"] (removeTags removed_tags f') := by
        simp only [removeTags, if_pos (show str "a" ∈ [str "a"] by decide)]
      rw [e2]
      exact ih hf'
    | adText s hads =>
      have e1 : removeTags removed_tags (Html.text s :: f')
          = Html.text s :: removeTags removed_tags f' := by
        simp only [removeTags]
      have e2 : removeTags [str "a"] (Html.text s :: removeTags removed_tags f')
          = Html.text s :: removeTags [str "a"] (removeTags removed_tags f') := by
        simp only [removeTags]
      rw [e1, e2]
      intro t ht
      simp only [textsF] at ht
      rcases List.mem_cons.1 ht with rfl | ht'
      · exact hads
      · exact ih hf' t ht'

theorem pyLines_pyJoin_nl (ts : List Str) (h : ts ≠ []) :
    pyLines (pyJoin (str "\n") ts) = ts.flatMap pyLines := by
  induction ts with
  | nil => exact absurd rfl h
  | cons t ts' ih =>
    cases ts' with
    | nil => simp [pyJoin]
    | cons t' r =>
      have e1 : pyJoin (str "\n") (t :: t' :: r)
          = t ++ '\n' :: pyJoin (str "\n") (t' :: r) := by
        simp [pyJoin, str]
      rw [e1, pyLines_append_newline, ih (by simp)]
      simp

theorem clean_lines_nil (lines : List Str)
    (h : ∀ l ∈ lines, hasAd l = true ∨ (pyStrip l).isEmpty = true) :
    clean_lines lines = [] := by
  refine List.filterMap_eq_nil_iff.2 fun l hl => ?_
  rcases h l hl with h1 | h1
  · simp [h1]
  · by_cases h2 : hasAd l
    · simp [h2]
    · simp [h2, h1]

/-- Claim C8: cleaning a fragment whose content consists only of script elements, style
elements, hyperlink elements and text lines containing the fixed advertising keywords
yields the empty string (a normal value, not an error). -/
theorem clean_forest_noise_only (f : List Html) (h : ∀ n ∈ f, NoiseOnly n) :
    clean_forest f = [] := by
  have hmain : clean_lines (pyLines (get_text
      (removeTags [str "a"] (removeTags removed_tags f)))) = [] := by
    refine clean_lines_nil _ fun l hl => ?_
    rw [get_text] at hl
    cases hts : (textsF (removeTags [str "a"] (removeTags removed_tags f))).filterMap
        (fun s => let t := pyStrip s; if t.isEmpty then none else some t) with
    | nil =>
      rw [hts] at hl
      simp only [pyJoin, pyLines] at hl
      rcases List.mem_singleton.1 hl with rfl
      right
      rfl
    | cons t ts' =>
      rw [hts, pyLines_pyJoin_nl _ (by simp)] at hl
      rw [List.mem_flatMap] at hl
      obtain ⟨tl, htl, hmem⟩ := hl
      have htl' := htl
      rw [← hts] at htl'
      obtain ⟨s, hs, hkeep⟩ := List.mem_filterMap.1 htl'
      have htlstrip : tl = pyStrip s := by
        simp only [] at hkeep
        by_cases hemp : (pyStrip s).isEmpty
        · rw [if_pos hemp] at hkeep
          exact absurd hkeep (by simp)
        · rw [if_neg hemp] at hkeep
          exact (Option.some.injEq _ _ ▸ hkeep).symm
      left
      rw [htlstrip] at hmem
      obtain ⟨l0, hl0, a, b, hdec, haw, hbw⟩ := lines_pyStrip s l hmem
      exact hasAd_extension a l b l0 hdec haw hbw
        (noise_texts f h s hs l0 hl0)
  show pyJoin (str "\n\n") ((clean_lines (pyLines (get_text
      (removeTags [str "a"] (removeTags removed_tags f))))).filter
      fun l => !l.isEmpty) = []
  rw [hmain]
  rfl

/-- Witness for C8: a concrete noise-only fragment (a script element and an
ad-keyword text) cleans to the empty string. -/
theorem clean_forest_noise_only_witness :
    clean_forest [Html.elem (str "script") [Html.text (str "junk js")],
      Html.text (str "ad: buy now")] = [] := by
  refine clean_forest_noise_only _ fun n hn => ?_
  rcases List.mem_cons.1 hn with rfl | hn'
  · exact NoiseOnly.script _
  · rcases List.mem_cons.1 hn' with rfl | hn''
    · refine NoiseOnly.adText _ ?_
      decide
    · simp at hn''

theorem tsf_tail (c : Char) (s : Str) (h : tsf (c :: s) = true) : tsf s = true := by
  cases s with
  | nil => rfl
  | cons d r =>
    simp only [tsf, Bool.and_eq_true] at h
    exact h.2

theorem tsf_append_right (a b : Str) (h : tsf (a ++ b) = true) : tsf b = true := by
  induction a with
  | nil => simpa using h
  | cons c a' ih => exact ih (tsf_tail c _ (by simpa using h))

theorem tsf_append_left (a b : Str) (h : tsf (a ++ b) = true) : tsf a = true := by
  induction a with
  | nil => rfl
  | cons c a' ih =>
    cases a' with
    | nil => rfl
    | cons d a'' =>
      have h' : tsf (c :: d :: (a'' ++ b)) = true := by simpa using h
      simp only [tsf, Bool.and_eq_true] at h'
      have hrest : tsf (d :: a'') = true := ih (by simpa using h'.2)
      simp only [tsf, Bool.and_eq_true]
      exact ⟨h'.1, hrest⟩

theorem tsf_sub (t s : Str) (hi : t <:+: s) (h : tsf s = true) : tsf t = true := by
  obtain ⟨u, v, huv⟩ := hi
  subst huv
  rw [List.append_assoc] at h
  exact tsf_append_left t v (tsf_append_right u _ h)

theorem okPair_nl (c : Char) : okPair c '\n' = true := by
  simp [okPair, tagStart]

theorem tsf_cons_nl (s : Str) (h : tsf s = true) : tsf ('\n' :: s) = true := by
  cases s with
  | nil => rfl
  | cons d r =>
    simp only [tsf, Bool.and_eq_true]
    refine ⟨?_, h⟩
    simp [okPair, tagStart]

theorem tsf_append_nl (a b : Str) (ha : tsf a = true) (hb : tsf b = true) :
    tsf (a ++ '\n' :: b) = true := by
  induction a with
  | nil => exact tsf_cons_nl b hb
  | cons c a' ih =>
    have ha' : tsf a' = true := tsf_tail c a' ha
    have hrest : tsf (a' ++ '\n' :: b) = true := ih ha'
    cases a' with
    | nil =>
      simp only [List.nil_append] at hrest
      simp only [List.cons_append, List.nil_append, tsf, Bool.and_eq_true]
      cases b with
      | nil => exact ⟨okPair_nl c, by rfl⟩
      | cons e r => exact ⟨okPair_nl c, hrest⟩
    | cons d a'' =>
      have hok : okPair c d = true := by
        simp only [tsf, Bool.and_eq_true] at ha
        exact ha.1
      simp only [List.cons_append, tsf, Bool.and_eq_true] at hrest ⊢
      exact ⟨hok, by simpa using ih ha'⟩

theorem tsf_join1 (ts : List Str) (h : ∀ t ∈ ts, tsf t = true) :
    tsf (pyJoin (str "\n") ts) = true := by
  induction ts with
  | nil => rfl
  | cons t ts' ih =>
    cases ts' with
    | nil => simpa [pyJoin] using h t (List.mem_cons_self t [])
    | cons t' r =>
      have e1 : pyJoin (str "\n") (t :: t' :: r)
          = t ++ '\n' :: pyJoin (str "\n") (t' :: r) := by
        simp [pyJoin, str]
      rw [e1]
      exact tsf_append_nl _ _ (h t (List.mem_cons_self t _))
        (ih fun x hx => h x (List.mem_cons_of_mem t hx))

theorem tsf_join2 (ts : List Str) (h : ∀ t ∈ ts, tsf t = true) :
    tsf (pyJoin (str "\n\n") ts) = true := by
  induction ts with
  | nil => rfl
  | cons t ts' ih =>
    cases ts' with
    | nil => simpa [pyJoin] using h t (List.mem_cons_self t [])
    | cons t' r =>
      have e1 : pyJoin (str "\n\n") (t :: t' :: r)
          = t ++ '\n' :: '\n' :: pyJoin (str "\n\n") (t' :: r) := by
        simp [pyJoin, str]
      rw [e1]
      exact tsf_append_nl _ _ (h t (List.mem_cons_self t _))
        (tsf_cons_nl _ (ih fun x hx => h x (List.mem_cons_of_mem t hx)))

theorem takeText_append (s : Str) : (takeText s).1 ++ (takeText s).2 = s := by
  induction s with
  | nil => rfl
  | cons c rest ih =>
    cases rest with
    | nil => rfl
    | cons c2 r =>
      by_cases hcond : c = '<' && tagStart c2
      · simp [takeText, hcond]
      · simp only [takeText, if_neg hcond, List.cons_append]
        rw [ih]

theorem takeText_head (c : Char) (rest : Str) :
    (takeText (c :: rest)).1 = [] ∨ ∃ t', (takeText (c :: rest)).1 = c :: t' := by
  cases rest with
  | nil => exact Or.inr ⟨[], rfl⟩
  | cons c2 r =>
    by_cases hcond : c = '<' && tagStart c2
    · simp [takeText, hcond]
    · simp only [takeText, if_neg hcond]
      exact Or.inr ⟨_, rfl⟩

theorem takeText_tsf (s : Str) : tsf (takeText s).1 = true := by
  induction s with
  | nil => rfl
  | cons c rest ih =>
    cases rest with
    | nil => rfl
    | cons c2 r =>
      by_cases hcond : c = '<' && tagStart c2
      · simp [takeText, hcond, tsf]
      · have hfalse : (decide (c = '<') && tagStart c2) = false := by
          revert hcond
          cases h : (decide (c = '<') && tagStart c2) <;> simp
        simp only [takeText, if_neg hcond]
        rcases takeText_head c2 r with h1 | ⟨t', h1⟩
        · rw [h1]; rfl
        · rw [h1]
          rw [h1] at ih
          simp only [tsf, Bool.and_eq_true]
          exact ⟨by simp [okPair, hfalse], ih⟩

theorem takeText_rest (s : Str) :
    (takeText s).2 = []
      ∨ ∃ c2 r, (takeText s).2 = '<' :: c2 :: r ∧ tagStart c2 = true := by
  induction s with
  | nil => exact Or.inl rfl
  | cons c rest ih =>
    cases rest with
    | nil => exact Or.inl rfl
    | cons c2 r =>
      by_cases hcond : c = '<' && tagStart c2
      · rw [Bool.and_eq_true] at hcond
        have hc : c = '<' := by simpa using hcond.1
        subst hc
        refine Or.inr ⟨c2, r, ?_, hcond.2⟩
        simp [takeText, hcond.2]
      · simp only [takeText, if_neg hcond]
        exact ih

theorem takeText_all (s : Str) (h : tsf s = true) : takeText s = (s, []) := by
  induction s with
  | nil => rfl
  | cons c rest ih =>
    cases rest with
    | nil => rfl
    | cons c2 r =>
      have hok : okPair c c2 = true := by
        simp only [tsf, Bool.and_eq_true] at h
        exact h.1
      have hcond : ¬ (c = '<' && tagStart c2) = true := by
        simp only [okPair] at hok
        simp only [Bool.not_eq_true']  at hok
        simp [hok]
      simp only [takeText, if_neg hcond, ih (tsf_tail c _ h)]

theorem tokenizeAux_text_tsf (fuel : Nat) :
    ∀ (s : Str) (t : Str), Tok.ttext t ∈ tokenizeAux fuel s → tsf t = true := by
  induction fuel with
  | zero => intro s t h; simp [tokenizeAux] at h
  | succ n ih =>
    intro s t h
    cases s with
    | nil => simp [tokenizeAux] at h
    | cons c₀ s₀ =>
      rw [show tokenizeAux (n + 1) (c₀ :: s₀)
          = (if (takeText (c₀ :: s₀)).1.isEmpty then ([] : List Tok)
              else [Tok.ttext (takeText (c₀ :: s₀)).1]) ++
            (match (takeText (c₀ :: s₀)).2 with
            | [] => []
            | '<' :: c :: rest =>
              if c = '/' then
                Tok.tclose (readName rest).1
                  :: tokenizeAux n (skipGt (readName rest).2)
              else
                Tok.topen (readName (c :: rest)).1
                  :: tokenizeAux n (skipGt (readName (c :: rest)).2)
            | r => [Tok.ttext r]) from ?_] at h
      · rw [List.mem_append] at h
        rcases h with h1 | h1
        · by_cases hemp : (takeText (c₀ :: s₀)).1.isEmpty
          · rw [if_pos hemp] at h1; simp at h1
          · rw [if_neg hemp] at h1
            rcases List.mem_singleton.1 h1 with h2
            have h3 : t = (takeText (c₀ :: s₀)).1 := by
              injection h2
            rw [h3]
            exact takeText_tsf _
        · rcases takeText_rest (c₀ :: s₀) with h2 | ⟨c2, r, h2, htag⟩
          · rw [h2] at h1; simp at h1
          · rw [h2] at h1
            have hlt : ¬ c2 = '<' := by
              intro hc
              rw [hc] at htag
              simp [tagStart] at htag
            by_cases hsl : c2 = '/'
            · subst hsl
              simp only [if_pos rfl] at h1
              rcases List.mem_cons.1 h1 with h3 | h3
              · exact absurd h3 (by simp)
              · exact ih _ t h3
            · simp only [if_neg hsl] at h1
              rcases List.mem_cons.1 h1 with h3 | h3
              · exact absurd h3 (by simp)
              · exact ih _ t h3
      · simp only [tokenizeAux]
        rcases takeText_rest (c₀ :: s₀) with h2 | ⟨c2, r, h2, htag⟩
        · rw [h2]
          by_cases hemp : (takeText (c₀ :: s₀)).1.isEmpty <;> simp [hemp]
        · rw [h2]
          by_cases hsl : c2 = '/'
          · subst hsl
            by_cases hemp : (takeText (c₀ :: s₀)).1.isEmpty <;> simp [hemp]
          · have halpha : c2.isAlpha = true := by
              simp only [tagStart, Bool.or_eq_true, decide_eq_true_eq] at htag
              rcases htag with h3 | h3
              · exact h3
              · exact absurd h3 hsl
            have : ¬ c2 = '<' := by
              intro hc; rw [hc] at halpha; simp [Char.isAlpha, Char.isLower, Char.isUpper] at halpha
            by_cases hemp : (takeText (c₀ :: s₀)).1.isEmpty <;>
              simp [hemp, hsl]

theorem tokenizeAux_all (n : Nat) (s : Str) (hne : s ≠ []) (h : tsf s = true) :
    tokenizeAux (n + 1) s = [Tok.ttext s] := by
  cases s with
  | nil => exact absurd rfl hne
  | cons c rest =>
    have htt := takeText_all (c :: rest) h
    simp only [tokenizeAux, htt]
    rfl

theorem textsF_append (a b : List Html) : textsF (a ++ b) = textsF a ++ textsF b := by
  induction a with
  | nil => simp [textsF]
  | cons n rest ih =>
    cases n with
    | text s => simp [textsF, ih]
    | elem tag kids => simp [textsF, ih]

theorem mem_textsF_reverse (l : List Html) (s : Str) :
    s ∈ textsF l.reverse ↔ s ∈ textsF l := by
  induction l with
  | nil => simp
  | cons n rest ih =>
    rw [List.reverse_cons, textsF_append]
    cases n with
    | text t => simp [textsF, ih]; tauto
    | elem tag kids => simp [textsF, ih]; tauto

theorem finalizeAux_texts (stk : List (Str × List Html)) :
    ∀ (m : Str) (kids : List Html) (acc : List Html) (s : Str),
      s ∈ textsF (finalizeAux m kids stk acc) →
        s ∈ textsF kids ∨ (∃ fr ∈ stk, s ∈ textsF fr.2) ∨ s ∈ textsF acc := by
  induction stk with
  | nil =>
    intro m kids acc s h
    simp only [finalizeAux] at h
    rw [mem_textsF_reverse] at h
    simp only [textsF] at h
    rw [List.mem_append] at h
    rcases h with h1 | h1
    · left
      rw [mem_textsF_reverse] at h1
      simpa using h1
    · right; right; simpa [textsF] using h1
  | cons fr stk' ih =>
    intro m kids acc s h
    obtain ⟨m', kids'⟩ := fr
    simp only [finalizeAux] at h
    rcases ih m' _ acc s h with h1 | h1 | h1
    · simp only [textsF] at h1
      rw [List.mem_append] at h1
      rcases h1 with h2 | h2
      · left
        rw [mem_textsF_reverse] at h2
        simpa using h2
      · right; left
        exact ⟨(m', kids'), List.mem_cons_self _ _, h2⟩
    · right; left
      obtain ⟨fr2, hfr2, hs⟩ := h1
      exact ⟨fr2, List.mem_cons_of_mem _ hfr2, hs⟩
    · right; right; exact h1

theorem popTo_texts (stk : List (Str × List Html)) :
    ∀ (n m : Str) (kids : List Html) (acc : List Html) (s : Str),
      ((∃ fr ∈ (popTo n m kids stk acc).1, s ∈ textsF fr.2)
        ∨ s ∈ textsF (popTo n m kids stk acc).2) →
        s ∈ textsF kids ∨ (∃ fr ∈ stk, s ∈ textsF fr.2) ∨ s ∈ textsF acc := by
  induction stk with
  | nil =>
    intro n m kids acc s h
    simp only [popTo] at h
    rcases h with ⟨fr, hfr, _⟩ | h1
    · simp at hfr
    · simp only [textsF] at h1
      rw [List.mem_append] at h1
      rcases h1 with h2 | h2
      · left
        rw [mem_textsF_reverse] at h2
        simpa using h2
      · right; right; simpa [textsF] using h2
  | cons fr stk' ih =>
    intro n m kids acc s h
    obtain ⟨m', kids'⟩ := fr
    simp only [popTo] at h
    by_cases heq : m = n
    · rw [if_pos heq] at h
      rcases h with ⟨fr2, hfr2, hs⟩ | h1
      · rcases List.mem_cons.1 hfr2 with rfl | hmem
        · simp only [textsF] at hs
          rw [List.mem_append] at hs
          rcases hs with h2 | h2
          · left
            rw [mem_textsF_reverse] at h2
            simpa using h2
          · right; left
            exact ⟨(m', kids'), List.mem_cons_self _ _, h2⟩
        · right; left
          exact ⟨fr2, List.mem_cons_of_mem _ hmem, hs⟩
      · right; right; exact h1
    · rw [if_neg heq] at h
      rcases ih n m' _ acc s h with h1 | h1 | h1
      · simp only [textsF] at h1
        rw [List.mem_append] at h1
        rcases h1 with h2 | h2
        · left
          rw [mem_textsF_reverse] at h2
          simpa using h2
        · right; left
          exact ⟨(m', kids'), List.mem_cons_self _ _, h2⟩
      · right; left
        obtain ⟨fr2, hfr2, hs⟩ := h1
        exact ⟨fr2, List.mem_cons_of_mem _ hfr2, hs⟩
      · right; right; exact h1

theorem buildAux_texts (toks : List Tok) :
    ∀ (stk : List (Str × List Html)) (acc : List Html) (s : Str),
      s ∈ textsF (buildAux toks stk acc) →
        Tok.ttext s ∈ toks ∨ (∃ fr ∈ stk, s ∈ textsF fr.2) ∨ s ∈ textsF acc := by
  induction toks with
  | nil =>
    intro stk acc s h
    cases stk with
    | nil =>
      simp only [buildAux] at h
      rw [mem_textsF_reverse] at h
      right; right; exact h
    | cons fr stk' =>
      obtain ⟨m, kids⟩ := fr
      simp only [buildAux] at h
      rcases finalizeAux_texts stk' m kids acc s h with h1 | h1 | h1
      · right; left; exact ⟨(m, kids), List.mem_cons_self _ _, h1⟩
      · right; left
        obtain ⟨fr2, hfr2, hs⟩ := h1
        exact ⟨fr2, List.mem_cons_of_mem _ hfr2, hs⟩
      · right; right; exact h1
  | cons tok rest ih =>
    intro stk acc s h
    cases tok with
    | ttext t =>
      cases stk with
      | nil =>
        simp only [buildAux] at h
        rcases ih [] _ s h with h1 | h1 | h1
        · left; exact List.mem_cons_of_mem _ h1
        · obtain ⟨fr2, hfr2, _⟩ := h1
          simp at hfr2
        · simp only [textsF] at h1
          rcases List.mem_cons.1 h1 with rfl | h2
          · left; exact List.mem_cons_self _ _
          · right; right; exact h2
      | cons fr stk' =>
        obtain ⟨m, kids⟩ := fr
        simp only [buildAux] at h
        rcases ih _ _ s h with h1 | h1 | h1
        · left; exact List.mem_cons_of_mem _ h1
        · obtain ⟨fr2, hfr2, hs⟩ := h1
          rcases List.mem_cons.1 hfr2 with rfl | hmem
          · simp only [textsF] at hs
            rcases List.mem_cons.1 hs with rfl | h2
            · left; exact List.mem_cons_self _ _
            · right; left
              exact ⟨(m, kids), List.mem_cons_self _ _, h2⟩
          · right; left
            exact ⟨fr2, List.mem_cons_of_mem _ hmem, hs⟩
        · right; right; exact h1
    | topen n =>
      simp only [buildAux] at h
      rcases ih _ _ s h with h1 | h1 | h1
      · left; exact List.mem_cons_of_mem _ h1
      · obtain ⟨fr2, hfr2, hs⟩ := h1
        rcases List.mem_cons.1 hfr2 with rfl | hmem
        · simp [textsF] at hs
        · right; left; exact ⟨fr2, hmem, hs⟩
      · right; right; exact h1
    | tclose n =>
      simp only [buildAux] at h
      by_cases hcont : (stk.map Prod.fst).contains n
      · rw [if_pos hcont] at h
        cases stk with
        | nil =>
          rcases ih _ _ s h with h1 | h1 | h1
          · left; exact List.mem_cons_of_mem _ h1
          · obtain ⟨fr2, hfr2, _⟩ := h1
            simp at hfr2
          · right; right; exact h1
        | cons fr stk' =>
          obtain ⟨m, kids⟩ := fr
          rcases ih _ _ s h with h1 | h1 | h1
          · left; exact List.mem_cons_of_mem _ h1
          · obtain ⟨fr2, hfr2, hs⟩ := h1
            rcases popTo_texts stk' n m kids acc s (Or.inl ⟨fr2, hfr2, hs⟩)
              with h2 | h2 | h2
            · right; left
              exact ⟨(m, kids), List.mem_cons_self _ _, h2⟩
            · right; left
              obtain ⟨fr3, hfr3, hs3⟩ := h2
              exact ⟨fr3, List.mem_cons_of_mem _ hfr3, hs3⟩
            · right; right; exact h2
          · rcases popTo_texts stk' n m kids acc s (Or.inr h1) with h2 | h2 | h2
            · right; left
              exact ⟨(m, kids), List.mem_cons_self _ _, h2⟩
            · right; left
              obtain ⟨fr3, hfr3, hs3⟩ := h2
              exact ⟨fr3, List.mem_cons_of_mem _ hfr3, hs3⟩
            · right; right; exact h2
      · rw [if_neg hcont] at h
        rcases ih _ _ s h with h1 | h1 | h1
        · left; exact List.mem_cons_of_mem _ h1
        · right; left; exact h1
        · right; right; exact h1

theorem parseHtml_texts_tsf (x : Str) :
    ∀ s ∈ textsF (parseHtml x), tsf s = true := by
  intro s hs
  rcases buildAux_texts (tokenizeAux x.length x) [] [] s hs with h1 | h1 | h1
  · exact tokenizeAux_text_tsf x.length x s h1
  · obtain ⟨fr, hfr, _⟩ := h1
    simp at hfr
  · simp [textsF] at h1

theorem parseHtml_tsf (s : Str) (hne : s ≠ []) (h : tsf s = true) :
    parseHtml s = [Html.text s] := by
  cases s with
  | nil => exact absurd rfl hne
  | cons c rest =>
    show buildAux (tokenizeAux (c :: rest).length (c :: rest)) [] [] = _
    rw [show (c :: rest).length = rest.length + 1 from rfl,
      tokenizeAux_all rest.length (c :: rest) hne h]
    rfl

theorem textsF_removeTags (names : List Str) (f : List Html) :
    ∀ s ∈ textsF (removeTags names f), s ∈ textsF f := by
  induction f using removeTags.induct names with
  | case1 => intro s hs; simpa [removeTags] using hs
  | case2 t rest ih =>
    intro s hs
    simp only [removeTags, textsF] at hs ⊢
    rcases List.mem_cons.1 hs with rfl | h2
    · exact List.mem_cons_self _ _
    · exact List.mem_cons_of_mem _ (ih s h2)
  | case3 tag kids rest hmem ih =>
    intro s hs
    simp only [removeTags, if_pos hmem] at hs
    simp only [textsF]
    exact List.mem_append_right _ (ih s hs)
  | case4 tag kids rest hmem ihkids ih =>
    intro s hs
    simp only [removeTags, if_neg hmem, textsF] at hs ⊢
    rw [List.mem_append] at hs ⊢
    rcases hs with h1 | h1
    · exact Or.inl (ihkids s h1)
    · exact Or.inr (ih s h1)

theorem dropTrailing_front (s : Str) : dropTrailing s <+: s := by
  induction s with
  | nil => exact List.prefix_refl _
  | cons c rest ih =>
    simp only [dropTrailing]
    split
    · exact List.nil_prefix
    · exact List.cons_prefix_cons.2 ⟨rfl, ih⟩

theorem dropLeading_suffix (s : Str) : dropLeading s <:+ s :=
  List.dropWhile_suffix pyIsSpace

theorem pyStrip_sub (s : Str) : pyStrip s <:+: s :=
  List.IsInfix.trans ((dropTrailing_front (dropLeading s)).isInfix)
    ((dropLeading_suffix s).isInfix)

theorem dropLeading_eq_self (s : Str) (h : (dropLeading s).length = s.length) :
    dropLeading s = s :=
  List.Sublist.eq_of_length (dropLeading_suffix s).sublist h

theorem pyStrip_parts (s : Str) (h : pyStrip s = s) :
    dropLeading s = s ∧ dropTrailing s = s := by
  have hlen1 : (pyStrip s).length ≤ (dropLeading s).length :=
    (dropTrailing_front (dropLeading s)).sublist.length_le
  have hlen2 : (dropLeading s).length ≤ s.length :=
    (dropLeading_suffix s).sublist.length_le
  have heq : (dropLeading s).length = s.length := by
    rw [h] at hlen1
    exact Nat.le_antisymm hlen2 hlen1
  have hdl : dropLeading s = s := dropLeading_eq_self s heq
  refine ⟨hdl, ?_⟩
  have : pyStrip s = dropTrailing s := by rw [pyStrip, hdl]
  rw [← this, h]

theorem dropLeading_cons_of_nonws (c : Char) (rest : Str) (h : pyIsSpace c = false) :
    dropLeading (c :: rest) = c :: rest := by
  simp [dropLeading, List.dropWhile_cons, h]

theorem head_nonws_of_dropLeading_eq (c : Char) (rest : Str)
    (h : dropLeading (c :: rest) = c :: rest) : pyIsSpace c = false := by
  by_cases hc : pyIsSpace c = true
  · exfalso
    have h1 : dropLeading (c :: rest) = dropLeading rest := by
      simp [dropLeading, List.dropWhile_cons, hc]
    have hlen : (dropLeading rest).length ≤ rest.length :=
      (List.dropWhile_suffix pyIsSpace).sublist.length_le
    rw [h1] at h
    have := congrArg List.length h
    simp at this
    omega
  · simpa using hc

theorem dropTrailing_append (a b : Str) :
    dropTrailing (a ++ b)
      = if (dropTrailing b).isEmpty then dropTrailing a else a ++ dropTrailing b := by
  induction a with
  | nil =>
    simp only [List.nil_append]
    by_cases hb : (dropTrailing b).isEmpty
    · rw [if_pos hb, List.isEmpty_iff.1 hb]
      rfl
    · rw [if_neg hb]
  | cons c a' ih =>
    rw [List.cons_append]
    by_cases hb : (dropTrailing b).isEmpty
    · rw [if_pos hb]
      have ih' : dropTrailing (a' ++ b) = dropTrailing a' := by rw [ih, if_pos hb]
      show (if (dropTrailing (a' ++ b)).isEmpty && pyIsSpace c then []
          else c :: dropTrailing (a' ++ b))
        = (if (dropTrailing a').isEmpty && pyIsSpace c then [] else c :: dropTrailing a')
      rw [ih']
    · rw [if_neg hb]
      have ih' : dropTrailing (a' ++ b) = a' ++ dropTrailing b := by rw [ih, if_neg hb]
      show (if (dropTrailing (a' ++ b)).isEmpty && pyIsSpace c then []
          else c :: dropTrailing (a' ++ b))
        = c :: (a' ++ dropTrailing b)
      rw [ih']
      have hne : (a' ++ dropTrailing b).isEmpty = false := by
        cases a' with
        | nil =>
          simp only [List.nil_append]
          simpa using hb
        | cons y ys => rfl
      rw [hne]
      simp

theorem dropTrailing_idem (s : Str) : dropTrailing (dropTrailing s) = dropTrailing s := by
  induction s with
  | nil => rfl
  | cons c rest ih =>
    by_cases hcond : (dropTrailing rest).isEmpty && pyIsSpace c
    · have e1 : dropTrailing (c :: rest) = [] := by
        show (if (dropTrailing rest).isEmpty && pyIsSpace c then []
          else c :: dropTrailing rest) = []
        rw [if_pos hcond]
      rw [e1]
      rfl
    · have e1 : dropTrailing (c :: rest) = c :: dropTrailing rest := by
        show (if (dropTrailing rest).isEmpty && pyIsSpace c then []
          else c :: dropTrailing rest) = _
        rw [if_neg hcond]
      rw [e1]
      show (if (dropTrailing (dropTrailing rest)).isEmpty && pyIsSpace c then []
        else c :: dropTrailing (dropTrailing rest)) = c :: dropTrailing rest
      rw [ih, if_neg hcond]

theorem dropLeading_head_nonws (s : Str) (c : Char) (r : Str)
    (h : dropLeading s = c :: r) : pyIsSpace c = false := by
  induction s with
  | nil => simp [dropLeading] at h
  | cons d rest ih =>
    by_cases hd : pyIsSpace d = true
    · have : dropLeading (d :: rest) = dropLeading rest := by
        simp [dropLeading, List.dropWhile_cons, hd]
      rw [this] at h
      exact ih h
    · have : dropLeading (d :: rest) = d :: rest := by
        simp only [dropLeading, List.dropWhile_cons]
        simp only [Bool.not_eq_true] at hd
        simp [hd]
      rw [this] at h
      injection h with h1 h2
      rw [← h1]
      simpa using hd

theorem dropLeading_idem (s : Str) : dropLeading (dropLeading s) = dropLeading s := by
  cases h : dropLeading s with
  | nil => rfl
  | cons c r =>
    exact dropLeading_cons_of_nonws c r (dropLeading_head_nonws s c r h)

theorem dropLeading_dropTrailing (x : Str) (h : dropLeading x = x) :
    dropLeading (dropTrailing x) = dropTrailing x := by
  cases x with
  | nil => rfl
  | cons c rest =>
    have hc : pyIsSpace c = false := head_nonws_of_dropLeading_eq c rest h
    have e1 : dropTrailing (c :: rest) = c :: dropTrailing rest := by
      show (if (dropTrailing rest).isEmpty && pyIsSpace c then []
        else c :: dropTrailing rest) = _
      rw [hc]
      simp
    rw [e1]
    exact dropLeading_cons_of_nonws _ _ hc

theorem pyStrip_idem (s : Str) : pyStrip (pyStrip s) = pyStrip s := by
  show dropTrailing (dropLeading (dropTrailing (dropLeading s)))
    = dropTrailing (dropLeading s)
  rw [dropLeading_dropTrailing (dropLeading s) (dropLeading_idem s), dropTrailing_idem]

theorem pyJoin2_cons (x y : Str) (r : List Str) :
    pyJoin (str "\n\n") (x :: y :: r)
      = x ++ '\n' :: '\n' :: pyJoin (str "\n\n") (y :: r) := by
  simp [pyJoin, str]

theorem pyJoin2_ne_nil (L : List Str) (hne : L ≠ []) (h : ∀ l ∈ L, l ≠ []) :
    pyJoin (str "\n\n") L ≠ [] := by
  cases L with
  | nil => exact absurd rfl hne
  | cons x r =>
    cases r with
    | nil => exact h x (List.mem_cons_self x [])
    | cons y r' =>
      rw [pyJoin2_cons]
      cases hx : x with
      | nil => exact absurd hx (h x (List.mem_cons_self x _))
      | cons c x' => simp

theorem dropTrailing_cons_of_ne (c : Char) (z : Str) (h : dropTrailing z ≠ []) :
    dropTrailing (c :: z) = c :: dropTrailing z := by
  show (if (dropTrailing z).isEmpty && pyIsSpace c then [] else c :: dropTrailing z) = _
  have : (dropTrailing z).isEmpty = false := by
    cases hz : dropTrailing z with
    | nil => exact absurd hz h
    | cons a b => rfl
  rw [this]
  simp

theorem dropTrailing_join2 (L : List Str) (hne : L ≠ [])
    (h : ∀ l ∈ L, pyStrip l = l ∧ l ≠ []) :
    dropTrailing (pyJoin (str "\n\n") L) = pyJoin (str "\n\n") L := by
  induction L with
  | nil => exact absurd rfl hne
  | cons x r ih =>
    cases r with
    | nil =>
      have := h x (List.mem_cons_self x [])
      exact (pyStrip_parts x this.1).2
    | cons y r' =>
      have hJ : dropTrailing (pyJoin (str "\n\n") (y :: r')) = pyJoin (str "\n\n") (y :: r') :=
        ih (by simp) (fun l hl => h l (List.mem_cons_of_mem x hl))
      have hJne : pyJoin (str "\n\n") (y :: r') ≠ [] :=
        pyJoin2_ne_nil _ (by simp) (fun l hl => (h l (List.mem_cons_of_mem x hl)).2)
      rw [pyJoin2_cons]
      have e1 : dropTrailing ('\n' :: pyJoin (str "\n\n") (y :: r'))
          = '\n' :: pyJoin (str "\n\n") (y :: r') := by
        rw [dropTrailing_cons_of_ne _ _ (by rw [hJ]; exact hJne), hJ]
      have e2 : dropTrailing ('\n' :: '\n' :: pyJoin (str "\n\n") (y :: r'))
          = '\n' :: '\n' :: pyJoin (str "\n\n") (y :: r') := by
        rw [dropTrailing_cons_of_ne _ _ (by rw [e1]; simp), e1]
      rw [dropTrailing_append, e2]
      simp

theorem pyStrip_join2 (L : List Str) (hne : L ≠ [])
    (h : ∀ l ∈ L, pyStrip l = l ∧ l ≠ []) :
    pyStrip (pyJoin (str "\n\n") L) = pyJoin (str "\n\n") L := by
  have hdl : dropLeading (pyJoin (str "\n\n") L) = pyJoin (str "\n\n") L := by
    cases L with
    | nil => exact absurd rfl hne
    | cons x r =>
      have hx := h x (List.mem_cons_self x r)
      have hxdl : dropLeading x = x := (pyStrip_parts x hx.1).1
      cases hxc : x with
      | nil => exact absurd hxc hx.2
      | cons c x' =>
        have hc : pyIsSpace c = false :=
          head_nonws_of_dropLeading_eq c x' (hxc ▸ hxdl)
        cases r with
        | nil => exact hxc ▸ hxdl
        | cons y r' =>
          rw [pyJoin2_cons]
          exact dropLeading_cons_of_nonws _ _ hc
  show dropTrailing (dropLeading (pyJoin (str "\n\n") L)) = _
  rw [hdl]
  exact dropTrailing_join2 L hne h

theorem pyLines_join2 (L : List Str) (hne : L ≠ []) (h : ∀ l ∈ L, '\n' ∉ l) :
    pyLines (pyJoin (str "\n\n") L) = L.intersperse [] := by
  induction L with
  | nil => exact absurd rfl hne
  | cons x r ih =>
    cases r with
    | nil =>
      simp only [pyJoin, List.intersperse_single]
      exact pyLines_no_newline x (h x (List.mem_cons_self x []))
    | cons y r' =>
      rw [pyJoin2_cons]
      have e1 : (x ++ '\n' :: '\n' :: pyJoin (str "\n\n") (y :: r'))
          = x ++ '\n' :: ('\n' :: pyJoin (str "\n\n") (y :: r')) := rfl
      rw [e1, pyLines_append_newline,
        pyLines_no_newline x (h x (List.mem_cons_self x _))]
      have e2 : pyLines ('\n' :: pyJoin (str "\n\n") (y :: r'))
          = [] :: pyLines (pyJoin (str "\n\n") (y :: r')) := by
        simp [pyLines]
      rw [e2, ih (by simp) (fun l hl => h l (List.mem_cons_of_mem x hl))]
      rfl

theorem mem_intersperse (L : List Str) (sep x : Str)
    (h : x ∈ L.intersperse sep) : x = sep ∨ x ∈ L := by
  induction L with
  | nil => simp at h
  | cons a r ih =>
    cases r with
    | nil =>
      rw [List.intersperse_single] at h
      rcases List.mem_singleton.1 h with rfl
      exact Or.inr (List.mem_cons_self _ _)
    | cons b r' =>
      rw [List.intersperse_cons₂] at h
      rcases List.mem_cons.1 h with rfl | h2
      · exact Or.inr (List.mem_cons_self _ _)
      · rcases List.mem_cons.1 h2 with rfl | h3
        · exact Or.inl rfl
        · rcases ih h3 with h4 | h4
          · exact Or.inl h4
          · exact Or.inr (List.mem_cons_of_mem _ h4)

theorem mem_intersperse_of_mem (L : List Str) (sep x : Str) (h : x ∈ L) :
    x ∈ L.intersperse sep := by
  induction L with
  | nil => simp at h
  | cons a r ih =>
    cases r with
    | nil => simpa using h
    | cons b r' =>
      rw [List.intersperse_cons₂]
      rcases List.mem_cons.1 h with rfl | h2
      · exact List.mem_cons_self _ _
      · exact List.mem_cons_of_mem _ (List.mem_cons_of_mem _ (ih h2))

theorem pyLines_head_prefix (s : Str) :
    ∀ x xs, pyLines s = x :: xs → x <+: s := by
  induction s with
  | nil =>
    intro x xs h
    simp only [pyLines] at h
    injection h with h1 h2
    rw [← h1]
  | cons c rest ih =>
    intro x xs h
    by_cases hc : c = '\n'
    · rw [show pyLines (c :: rest) = [] :: pyLines rest by simp [pyLines, hc]] at h
      injection h with h1 h2
      rw [← h1]
      exact List.nil_prefix
    · rw [show pyLines (c :: rest)
          = (pyLines rest).modifyHead (fun l => c :: l) by simp [pyLines, hc]] at h
      cases hr : pyLines rest with
      | nil => exact absurd hr (pyLines_ne_nil rest)
      | cons y ys =>
        rw [hr, List.modifyHead_cons] at h
        injection h with h1 h2
        rw [← h1]
        exact List.cons_prefix_cons.2 ⟨rfl, ih y ys hr⟩

theorem mem_pyLines_sub (s : Str) : ∀ l ∈ pyLines s, l <:+: s := by
  induction s with
  | nil =>
    intro l hl
    simp only [pyLines] at hl
    rcases List.mem_singleton.1 hl with rfl
    exact List.nil_infix
  | cons c rest ih =>
    intro l hl
    by_cases hc : c = '\n'
    · rw [show pyLines (c :: rest) = [] :: pyLines rest by simp [pyLines, hc]] at hl
      rcases List.mem_cons.1 hl with rfl | h2
      · exact List.nil_infix
      · exact List.infix_cons (ih l h2)
    · rw [show pyLines (c :: rest)
          = (pyLines rest).modifyHead (fun l => c :: l) by simp [pyLines, hc]] at hl
      cases hr : pyLines rest with
      | nil => exact absurd hr (pyLines_ne_nil rest)
      | cons y ys =>
        rw [hr, List.modifyHead_cons] at hl
        rcases List.mem_cons.1 hl with rfl | h2
        · exact (List.cons_prefix_cons.2 ⟨rfl, pyLines_head_prefix rest y ys hr⟩).isInfix
        · exact List.infix_cons (ih l (hr ▸ List.mem_cons_of_mem y h2))

theorem hasAd_nil : hasAd [] = false := by decide

theorem get_text_member_strip (f2 : List Html) (t : Str)
    (ht : t ∈ (textsF f2).filterMap fun s =>
      let t := pyStrip s
      if t.isEmpty then none else some t) :
    ∃ s ∈ textsF f2, t = pyStrip s := by
  obtain ⟨s, hs, hkeep⟩ := List.mem_filterMap.1 ht
  refine ⟨s, hs, ?_⟩
  simp only [] at hkeep
  by_cases hemp : (pyStrip s).isEmpty
  · rw [if_pos hemp] at hkeep
    exact absurd hkeep (by simp)
  · rw [if_neg hemp] at hkeep
    exact (Option.some.injEq _ _ ▸ hkeep).symm

theorem clean_lines_member (lines : List Str) (m : Str)
    (hm : m ∈ clean_lines lines) :
    ∃ line ∈ lines, m = pyStrip line ∧ hasAd line = false
      ∧ (pyStrip line).isEmpty = false := by
  obtain ⟨line, hline, hkeep⟩ := List.mem_filterMap.1 hm
  refine ⟨line, hline, ?_⟩
  by_cases had : hasAd line
  · rw [if_pos had] at hkeep
    exact absurd hkeep (by simp)
  · rw [if_neg had] at hkeep
    by_cases hcond : !(pyStrip line).isEmpty && !punctOnly line
    · rw [if_pos hcond] at hkeep
      rw [Bool.and_eq_true] at hcond
      refine ⟨(Option.some.injEq _ _ ▸ hkeep).symm, by simpa using had, ?_⟩
      simpa using hcond.1
    · rw [if_neg hcond] at hkeep
      exact absurd hkeep (by simp)

theorem clean_members (f : List Html) (htsf : ∀ s ∈ textsF f, tsf s = true) :
    ∀ m ∈ (clean_lines (pyLines (get_text
        (removeTags [str "a"] (removeTags removed_tags f))))).filter
        (fun l => !l.isEmpty),
      pyStrip m = m ∧ m ≠ [] ∧ hasAd m = false ∧ '\n' ∉ m ∧ tsf m = true := by
  have htsf2 : ∀ s ∈ textsF (removeTags [str "a"] (removeTags removed_tags f)),
      tsf s = true := fun s hs =>
    htsf s (textsF_removeTags removed_tags f s
      (textsF_removeTags [str "a"] (removeTags removed_tags f) s hs))
  have htxt : tsf (get_text (removeTags [str "a"] (removeTags removed_tags f)))
      = true := by
    rw [get_text]
    refine tsf_join1 _ fun t ht => ?_
    obtain ⟨s, hs, rfl⟩ := get_text_member_strip _ t ht
    exact tsf_sub _ s (pyStrip_sub s) (htsf2 s hs)
  intro m hm
  have hm1 := List.mem_filter.1 hm
  obtain ⟨line, hline, hmdef, hlad, hlemp⟩ := clean_lines_member _ m hm1.1
  have hstrip : pyStrip m = m := by rw [hmdef, pyStrip_idem]
  have hmne : m ≠ [] := by
    intro hnil
    rw [hnil] at hm1
    simp at hm1
  have hsubm : m <:+: line := hmdef ▸ pyStrip_sub line
  have hlineinf : line <:+:
      get_text (removeTags [str "a"] (removeTags removed_tags f)) :=
    mem_pyLines_sub _ line hline
  refine ⟨hstrip, hmne, ?_, ?_, ?_⟩
  · by_cases had : hasAd m
    · exact absurd (hasAd_of_sub m line hsubm had) (by simp [hlad])
    · simpa using had
  · intro hnl
    exact mem_pyLines_no_newline _ line hline (hsubm.subset hnl)
  · exact tsf_sub m _ hsubm (tsf_sub line _ hlineinf htxt)

theorem clean_lines_intersperse_sub (L : List Str)
    (h : ∀ m ∈ L, pyStrip m = m ∧ m ≠ [] ∧ hasAd m = false) :
    ∀ m ∈ clean_lines (L.intersperse []), m ∈ L := by
  intro m hm
  obtain ⟨line, hline, hmdef, hlad, hlemp⟩ := clean_lines_member _ m hm
  rcases mem_intersperse L [] line hline with rfl | hmemL
  · exfalso
    rw [show pyStrip ([] : Str) = [] from rfl] at hlemp
    simp at hlemp
  · obtain ⟨hs, hne, _⟩ := h line hmemL
    rw [hmdef, hs]
    exact hmemL

theorem clean_text_nil : clean_text ([] : Str) = [] := by
  have hp : parseHtml ([] : Str) = [] := rfl
  rw [clean_text, hp]
  show pyJoin (str "\n\n")
      ((clean_lines (pyLines (get_text (removeTags [str "a"]
        (removeTags removed_tags ([] : List Html)))))).filter
      (fun l => !l.isEmpty)) = []
  rw [show removeTags removed_tags ([] : List Html) = [] by simp [removeTags],
    show removeTags [str "a"] ([] : List Html) = [] by simp [removeTags], get_text,
    show textsF ([] : List Html) = [] by simp [textsF]]
  decide

theorem clean_forest_reclean (f : List Html)
    (htsf : ∀ s ∈ textsF f, tsf s = true) :
    ∀ l ∈ pyLines (clean_text (clean_forest f)), l ≠ [] →
      l ∈ pyLines (clean_forest f) := by
  have hcf : clean_forest f = pyJoin (str "\n\n")
      ((clean_lines (pyLines (get_text
        (removeTags [str "a"] (removeTags removed_tags f))))).filter
        (fun l => !l.isEmpty)) := rfl
  have hprops := clean_members f htsf
  cases hLc : (clean_lines (pyLines (get_text
      (removeTags [str "a"] (removeTags removed_tags f))))).filter
      (fun l => !l.isEmpty) with
  | nil =>
    have hout : clean_forest f = [] := by
      rw [hcf, hLc]
      rfl
    rw [hout, clean_text_nil]
    intro l hl hlne
    simp only [pyLines] at hl
    rcases List.mem_singleton.1 hl with rfl
    exact absurd rfl hlne
  | cons l0 L' =>
    rw [hLc] at hprops hcf
    have hstrip : ∀ m ∈ l0 :: L', pyStrip m = m ∧ m ≠ [] := fun m hm =>
      ⟨(hprops m hm).1, (hprops m hm).2.1⟩
    have hnonl : ∀ m ∈ l0 :: L', '\n' ∉ m := fun m hm => (hprops m hm).2.2.2.1
    have houtne : pyJoin (str "\n\n") (l0 :: L') ≠ [] :=
      pyJoin2_ne_nil _ (by simp) (fun m hm => (hprops m hm).2.1)
    have houttsf : tsf (pyJoin (str "\n\n") (l0 :: L')) = true :=
      tsf_join2 _ (fun m hm => (hprops m hm).2.2.2.2)
    have hparse : parseHtml (pyJoin (str "\n\n") (l0 :: L'))
        = [Html.text (pyJoin (str "\n\n") (l0 :: L'))] :=
      parseHtml_tsf _ houtne houttsf
    have hrm : removeTags [str "a"] (removeTags removed_tags
        [Html.text (pyJoin (str "\n\n") (l0 :: L'))])
        = [Html.text (pyJoin (str "\n\n") (l0 :: L'))] := by
      simp [removeTags]
    have hst : pyStrip (pyJoin (str "\n\n") (l0 :: L'))
        = pyJoin (str "\n\n") (l0 :: L') :=
      pyStrip_join2 _ (by simp) hstrip
    have hgt : get_text [Html.text (pyJoin (str "\n\n") (l0 :: L'))]
        = pyJoin (str "\n\n") (l0 :: L') := by
      rw [get_text]
      have e1 : textsF [Html.text (pyJoin (str "\n\n") (l0 :: L'))]
          = [pyJoin (str "\n\n") (l0 :: L')] := by simp [textsF]
      rw [e1]
      have hie : (pyJoin (str "\n\n") (l0 :: L')).isEmpty = false := by
        cases hj : pyJoin (str "\n\n") (l0 :: L') with
        | nil => exact absurd hj houtne
        | cons a b => rfl
      rw [show List.filterMap (fun s =>
          let t := pyStrip s
          if t.isEmpty then none else some t)
          [pyJoin (str "\n\n") (l0 :: L')]
          = [pyJoin (str "\n\n") (l0 :: L')] by
        simp only [List.filterMap_cons, List.filterMap_nil, hst, hie]
        rfl]
      rfl
    have hlines : pyLines (pyJoin (str "\n\n") (l0 :: L'))
        = (l0 :: L').intersperse [] :=
      pyLines_join2 _ (by simp) hnonl
    have hchain : clean_text (clean_forest f)
        = pyJoin (str "\n\n")
          ((clean_lines ((l0 :: L').intersperse [])).filter
            (fun l => !l.isEmpty)) := by
      rw [clean_text, hcf, hparse]
      show pyJoin (str "\n\n")
          ((clean_lines (pyLines (get_text (removeTags [str "a"]
            (removeTags removed_tags
              [Html.text (pyJoin (str "\n\n") (l0 :: L'))]))))).filter
            (fun l => !l.isEmpty)) = _
      rw [hrm, hgt, hlines]
    rw [hchain, hcf, hlines]
    have hsub : ∀ m ∈ (clean_lines ((l0 :: L').intersperse [])).filter
        (fun l => !l.isEmpty), m ∈ l0 :: L' := by
      intro m hm
      exact clean_lines_intersperse_sub (l0 :: L')
        (fun m' hm' => ⟨(hprops m' hm').1, (hprops m' hm').2.1,
          (hprops m' hm').2.2.1⟩) m (List.mem_filter.1 hm).1
    cases hL2 : (clean_lines ((l0 :: L').intersperse [])).filter
        (fun l => !l.isEmpty) with
    | nil =>
      intro l hl hlne
      rw [show pyJoin (str "\n\n") ([] : List Str) = [] from rfl] at hl
      simp only [pyLines] at hl
      rcases List.mem_singleton.1 hl with rfl
      exact absurd rfl hlne
    | cons m0 M' =>
      rw [hL2] at hsub
      have hlines2 : pyLines (pyJoin (str "\n\n") (m0 :: M'))
          = (m0 :: M').intersperse [] :=
        pyLines_join2 _ (by simp) (fun m hm => hnonl m (hsub m hm))
      rw [hlines2]
      intro l hl hlne
      rcases mem_intersperse _ _ _ hl with rfl | hmem
      · exact absurd rfl hlne
      · exact mem_intersperse_of_mem _ _ _ (hsub l hmem)

theorem clean_text_eval (s : Str) (hne : s ≠ []) (hts : tsf s = true) :
    clean_text s = pyJoin (str "\n\n")
      ((clean_lines (pyLines (pyJoin (str "\n")
        (List.filterMap (fun u : Str =>
          let t := pyStrip u
          if t.isEmpty then none else some t) [s])))).filter
      (fun l => !l.isEmpty)) := by
  rw [clean_text, parseHtml_tsf s hne hts]
  show pyJoin (str "\n\n") ((clean_lines (pyLines (get_text (removeTags [str "a"]
      (removeTags removed_tags [Html.text s]))))).filter (fun l => !l.isEmpty)) = _
  rw [show removeTags removed_tags [Html.text s] = [Html.text s] by simp [removeTags],
    show removeTags [str "a"] [Html.text s] = [Html.text s] by simp [removeTags],
    get_text, show textsF [Html.text s] = [s] by simp [textsF]]

/-- Counterexample to claim C9 as stated: for `x = "ad: x\n ..."` the first clean keeps
the lone line `...` (its untrimmed form `space ...` is not punctuation-only), but
re-cleaning drops it (now it is punctuation-only), leaving the empty string — whose line
set `{""}` is not a subset of `{"..."}`.  So `clean(clean x)` can contain a line that
`clean x` does not. -/
theorem clean_reclean_counterexample :
    clean_text (str "ad: x\n ...") = str "..."
    ∧ clean_text (clean_text (str "ad: x\n ...")) = []
    ∧ ([] : Str) ∈ pyLines (clean_text (clean_text (str "ad: x\n ...")))
    ∧ ([] : Str) ∉ pyLines (clean_text (str "ad: x\n ...")) := by
  have h1 : clean_text (str "ad: x\n ...") = str "..." := by
    rw [clean_text_eval _ (by decide) (by decide)]
    decide
  have h2 : clean_text (str "...") = [] := by
    rw [clean_text_eval _ (by decide) (by decide)]
    decide
  refine ⟨h1, ?_, ?_, ?_⟩
  · rw [h1, h2]
  · rw [h1, h2]; decide
  · rw [h1]; decide

/-- Claim C9 as amended: every *nonempty* line of `clean(clean x)` is a line of
`clean x` — re-cleaning the cleaner's own output never introduces new nonempty lines
(re-cleaning may drop a punctuation-only line, and when everything is dropped the
result is the empty string, whose sole "line" is the empty line). -/
theorem clean_reclean_nonempty_lines (x : Str) :
    ∀ l ∈ pyLines (clean_text (clean_text x)), l ≠ [] →
      l ∈ pyLines (clean_text x) :=
  clean_forest_reclean (parseHtml x) (parseHtml_texts_tsf x)

/-- Witness for amended C9: for `x = "hi"`, the line `hi` of the re-cleaned output is a
line of the cleaned output. -/
theorem clean_reclean_nonempty_lines_witness :
    str "hi" ∈ pyLines (clean_text (str "hi")) := by
  have h1 : clean_text (str "hi") = str "hi" := by
    rw [clean_text_eval _ (by decide) (by decide)]
    decide
  refine clean_reclean_nonempty_lines (str "hi") (str "hi") ?_ (by decide)
  rw [h1, h1]
  decide
